import Mathlib

/-!
# Spell checker trie (`src/spell.cpp`): shallow embedding and verified properties

The C++ program keeps a dictionary in a 26-ary prefix tree and answers exact
lookups, prefix enumerations and one-edit suggestions.

Embedding conventions
* `std::string` is a `List Char` (`Word`).
* `TrieNode*` is `Option TrieNode` (`none` is `NULL`); the array
  `children[26]` is a function on `Fin 26`.
* In-place mutation along the walked path becomes path copying: a method that
  mutates the trie returns the new trie.
* `children[c - 'a']` is an unchecked array access in the source.  The embedding
  checks the index (`slot`): an index outside `0..25` makes the operation return
  `none`.
* `while` loops that are not driven by a list carry explicit fuel.
-/

/-- A `std::string`. -/
abbrev Word := List Char

/-- Every character of the word lies in `'a'..'z'`. -/
def lowercase (w : Word) : Prop := ∀ c ∈ w, 'a' ≤ c ∧ c ≤ 'z'

instance (w : Word) : Decidable (lowercase w) := by
  unfold lowercase; infer_instance

/-- The index `c - 'a'` of `children[c - 'a']`, computed in `int` as the source
does, and checked against the array bounds `0..25`. -/
def slot (c : Char) : Option (Fin 26) :=
  let d : Int := (c.toNat : Int) - 97
  if h : 0 ≤ d ∧ d < 26 then some ⟨d.toNat, by omega⟩ else none

/-- The character `char(i + 'a')` of `dfs` and `spellCheck`. -/
def letter (i : Fin 26) : Char := Char.ofNat (i.val + 97)

/-- `struct TrieNode { bool terminating; TrieNode* children[26]; }`. -/
inductive TrieNode where
  | mk (terminating : Bool) (children : Fin 26 → Option TrieNode)

namespace TrieNode

/-- Field `terminating`. -/
def terminating : TrieNode → Bool
  | mk t _ => t

/-- Field `children`. -/
def children : TrieNode → Fin 26 → Option TrieNode
  | mk _ ch => ch

/-- `new TrieNode()`: not terminating, all 26 children `NULL`. -/
def new : TrieNode := mk false (fun _ => none)

/-- The loop of `Trie::insertWord` started at `currNode`, followed by
`currNode->terminating = true`. -/
def insertWord : TrieNode → Word → Option TrieNode
  | mk _ ch, [] => some (mk true ch)
  | mk term ch, c :: cs =>
    match slot c with
    | none => none
    | some i =>
      let child := match ch i with
        | none => TrieNode.new
        | some n => n
      match insertWord child cs with
      | none => none
      | some child1 => some (mk term (Function.update ch i (some child1)))

/-- The loop of `Trie::searchWord` started at `currNode`, followed by
`return currNode->terminating`. -/
def searchWord : TrieNode → Word → Option Bool
  | mk term _, [] => some term
  | mk _ ch, c :: cs =>
    match slot c with
    | none => none
    | some i =>
      match ch i with
      | none => some false
      | some n => searchWord n cs

/-- The loop of `Trie::deleteWord` started at `currNode`, followed by
`currNode->terminating = false; return true`.  The result is the returned
`bool` and the node after the call. -/
def deleteWord : TrieNode → Word → Option (Bool × TrieNode)
  | mk _ ch, [] => some (true, mk false ch)
  | mk term ch, c :: cs =>
    match slot c with
    | none => none
    | some i =>
      match ch i with
      | none => some (false, mk term ch)
      | some n =>
        match deleteWord n cs with
        | none => none
        | some (r, n1) => some (r, mk term (Function.update ch i (some n1)))

mutual
/-- `Trie::dfs(node, prefix, result)`; the value is `result` after the call. -/
def dfs : TrieNode → Word → List Word → List Word
  | mk term ch, pre, result =>
    let result := if term then result ++ [pre] else result
    (List.finRange 26).foldl
      (fun res i => dfsChild (ch i) (pre ++ [letter i]) res) result
/-- Body of the `for` loop of `Trie::dfs`:
`if (node->children[i] != NULL) dfs(node->children[i], prefix + char(i + 'a'), result)`,
where the first argument is `node->children[i]` and the second is
`prefix + char(i + 'a')`. -/
def dfsChild : Option TrieNode → Word → List Word → List Word
  | none, _, res => res
  | some n, pre, res => dfs n pre res
end

/-- The loop of `Trie::prefixSearch` started at `currNode` on the rest of the
prefix, followed by `dfs(currNode, prefix, result)`; `full` is the whole
`prefix` argument. -/
def prefixSearch (full : Word) : TrieNode → Word → Option (List Word)
  | n, [] => some (dfs n full [])
  | mk _ ch, c :: cs =>
    match slot c with
    | none => none
    | some i =>
      match ch i with
      | none => some []
      | some n => prefixSearch full n cs

/-- Every child slot along the letters of the word is present (the "full letter
path exists" of the specification). -/
def hasPath : TrieNode → Word → Bool
  | _, [] => true
  | mk _ ch, c :: cs =>
    match slot c with
    | none => false
    | some i =>
      match ch i with
      | none => false
      | some n => hasPath n cs

end TrieNode

/-- `class Trie { TrieNode* root; ... }`; the root is allocated by the
constructor and never `NULL`. -/
structure Trie where
  root : TrieNode

namespace Trie

/-- `Trie::Trie()`. -/
def new : Trie := ⟨TrieNode.new⟩

/-- `Trie::insertWord`. -/
def insertWord (t : Trie) (word : Word) : Option Trie :=
  (t.root.insertWord word).map Trie.mk

/-- `Trie::searchWord`. -/
def searchWord (t : Trie) (word : Word) : Option Bool :=
  t.root.searchWord word

/-- `Trie::deleteWord`: the returned `bool` and the trie after the call. -/
def deleteWord (t : Trie) (word : Word) : Option (Bool × Trie) :=
  (t.root.deleteWord word).map (fun r => (r.1, Trie.mk r.2))

/-- `Trie::updateWord`: the returned `bool` and the trie after the call. -/
def updateWord (t : Trie) (oldWord newWord : Word) : Option (Bool × Trie) :=
  match t.deleteWord oldWord with
  | none => none
  | some (deleted, t1) =>
    if deleted then
      match t1.insertWord newWord with
      | none => none
      | some t2 => some (deleted, t2)
    else some (deleted, t1)

/-- `Trie::prefixSearch`. -/
def prefixSearch (t : Trie) (pre : Word) : Option (List Word) :=
  t.root.prefixSearch pre pre

/-- The `while (getline(file, word)) insertWord(word)` loop of
`Trie::loadDictionary` over the lines read from the file. -/
def loadWords (t : Trie) (ws : List Word) : Option Trie :=
  ws.foldlM Trie.insertWord t

/-- The full letter path of the word exists from the root. -/
def hasPath (t : Trie) (w : Word) : Bool := t.root.hasPath w

end Trie

/-- The `while (i < len1 && j < len2)` loop of `Trie::isOneEditDistance` and the
final `return true`, with the loop state `i`, `j`, `edits` (never negative).
Each iteration consumes one unit of fuel; `none` means the fuel ran out. -/
def isOneEditDistance.loop (word1 word2 : Word) (len1 len2 : Nat) :
    Nat → Nat → Nat → Nat → Option Bool
  | 0, _, _, _ => none
  | fuel + 1, i, j, edits =>
    if i < len1 ∧ j < len2 then
      if word1[i]? ≠ word2[j]? then
        let edits := edits + 1
        if edits > 1 then some false
        else if len1 > len2 then isOneEditDistance.loop word1 word2 len1 len2 fuel (i + 1) j edits
        else if len1 < len2 then isOneEditDistance.loop word1 word2 len1 len2 fuel i (j + 1) edits
        else isOneEditDistance.loop word1 word2 len1 len2 fuel (i + 1) (j + 1) edits
      else isOneEditDistance.loop word1 word2 len1 len2 fuel (i + 1) (j + 1) edits
    else some true

/-- `Trie::isOneEditDistance`.  The lengths are far below `2^31`, so the `int`
arithmetic is exact.  The fuel `len1 + len2 + 1` exceeds the number of
iterations, since every iteration advances `i` or `j`. -/
def isOneEditDistance (word1 word2 : Word) : Option Bool :=
  let len1 := word1.length
  let len2 := word2.length
  if ((len1 : Int) - (len2 : Int)).natAbs > 1 then some false
  else isOneEditDistance.loop word1 word2 len1 len2 (len1 + len2 + 1) 0 0 0

mutual
/-- Number of nodes of the subtree below a node, the node included.  It bounds
the number of iterations of the breadth-first loop of `Trie::spellCheck`. -/
def TrieNode.size : TrieNode → Nat
  | TrieNode.mk _ ch => 1 + ((List.finRange 26).map (fun i => TrieNode.sizeChild (ch i))).sum
/-- Number of nodes reachable through a child pointer (`0` for `NULL`). -/
def TrieNode.sizeChild : Option TrieNode → Nat
  | none => 0
  | some n => TrieNode.size n
end

/-- The `while (!q.empty())` loop of `Trie::spellCheck` on the queue `q` of
`(node, prefix)` pairs and the `unordered_set` `suggestions`.  The set is kept
as a list without repetition (`insert` adds a string only when it is absent);
the order of that list is not meaningful, since the source copies the set to
the result in the unspecified iteration order of the hash set.  Each iteration
consumes one unit of fuel; `none` means the fuel ran out (or a character index
was out of range). -/
def spellCheck.loop (word : Word) :
    Nat → List (TrieNode × Word) → List Word → Option (List Word)
  | _, [], suggestions => some suggestions
  | 0, _ :: _, _ => none
  | fuel + 1, (TrieNode.mk term ch, pre) :: q, suggestions =>
    match (if term then isOneEditDistance word pre else some false) with
    | none => none
    | some hit =>
      let suggestions :=
        if hit then (if pre ∈ suggestions then suggestions else suggestions ++ [pre])
        else suggestions
      let q := (List.finRange 26).foldl
        (fun q i => match ch i with
          | none => q
          | some c => q ++ [(c, pre ++ [letter i])]) q
      spellCheck.loop word fuel q suggestions

/-- `Trie::spellCheck`.  The fuel is the number of nodes of the trie: every
iteration pops one node and each node is pushed once. -/
def Trie.spellCheck (t : Trie) (word : Word) : Option (List Word) :=
  spellCheck.loop word t.root.size [(t.root, [])] []

/-- The depth-bounded variant of the breadth-first loop that the specification
describes as a correct optimisation: the children of a node are pushed only
when the node lies above depth `|word| + 1`, so the scan does not descend below
that depth.  Everything else is as in `spellCheck.loop`. -/
def spellCheckBounded.loop (word : Word) :
    Nat → List (TrieNode × Word) → List Word → Option (List Word)
  | _, [], suggestions => some suggestions
  | 0, _ :: _, _ => none
  | fuel + 1, (TrieNode.mk term ch, pre) :: q, suggestions =>
    match (if term then isOneEditDistance word pre else some false) with
    | none => none
    | some hit =>
      let suggestions :=
        if hit then (if pre ∈ suggestions then suggestions else suggestions ++ [pre])
        else suggestions
      let q :=
        if pre.length < word.length + 1 then
          (List.finRange 26).foldl
            (fun q i => match ch i with
              | none => q
              | some c => q ++ [(c, pre ++ [letter i])]) q
        else q
      spellCheckBounded.loop word fuel q suggestions

/-- The depth-bounded suggestion scan from the root. -/
def Trie.spellCheckBounded (t : Trie) (word : Word) : Option (List Word) :=
  spellCheckBounded.loop word t.root.size [(t.root, [])] []

/-- Common form of the two breadth-first loops, with the decision to descend
below a node as a parameter.  Used in proofs only. -/
def scanLoop (descend : Word → Bool) (word : Word) :
    Nat → List (TrieNode × Word) → List Word → Option (List Word)
  | _, [], suggestions => some suggestions
  | 0, _ :: _, _ => none
  | fuel + 1, (TrieNode.mk term ch, pre) :: q, suggestions =>
    match (if term then isOneEditDistance word pre else some false) with
    | none => none
    | some hit =>
      let suggestions :=
        if hit then (if pre ∈ suggestions then suggestions else suggestions ++ [pre])
        else suggestions
      let q :=
        if descend pre then
          (List.finRange 26).foldl
            (fun q i => match ch i with
              | none => q
              | some c => q ++ [(c, pre ++ [letter i])]) q
        else q
      scanLoop descend word fuel q suggestions

/-- The word `w` is spelled by a terminating node below the queue entry `e`, is
within one edit of `word`, and the scan descends below every node on the way.
Used in proofs only. -/
def ScanHit (descend : Word → Bool) (word : Word) (e : TrieNode × Word) (w : Word) : Prop :=
  ∃ s, w = e.2 ++ s ∧ e.1.searchWord s = some true ∧ isOneEditDistance word w = some true ∧
    ∀ s1 s2, s = s1 ++ s2 → s2 ≠ [] → descend (e.2 ++ s1) = true

/-- Specification side of the one-edit predicate: `b` is `a`, or `b` arises from
`a` by inserting one character, deleting one character, or replacing one
character by another. -/
def AtMostOneEdit (a b : Word) : Prop :=
  a = b ∨
  (∃ l r c, a = l ++ r ∧ b = l ++ c :: r) ∨
  (∃ l r c, a = l ++ c :: r ∧ b = l ++ r) ∨
  (∃ l r c d, a = l ++ c :: r ∧ b = l ++ d :: r)

/-- List view of the loop of `isOneEditDistance` once `edits` is 1: the two
remaining suffixes agree on their common length.  Used in proofs only. -/
def OneEdit.agree : Word → Word → Bool
  | x :: xs, y :: ys => if x = y then OneEdit.agree xs ys else false
  | _, _ => true

/-- List view of the loop of `isOneEditDistance` while `edits` is 0, on the
remaining suffixes; `c` is the comparison of `len1` with `len2`.  Used in
proofs only. -/
def OneEdit.walk (c : Ordering) : Word → Word → Bool
  | x :: xs, y :: ys =>
    if x = y then OneEdit.walk c xs ys
    else match c with
      | .gt => OneEdit.agree xs (y :: ys)
      | .lt => OneEdit.agree (x :: xs) ys
      | .eq => OneEdit.agree xs ys
  | _, _ => true

/-- The trie after `insertWord(w)`, and the trie itself when the call has no
result.  Used in proofs only. -/
def Trie.inserted (t : Trie) (w : Word) : Trie := (t.insertWord w).getD t

/-- The dictionary `{"cat", "car", "cart", "dog"}` of the prefix-enumeration
example. -/
def sampleDictionary : List Word :=
  ["cat".toList, "car".toList, "cart".toList, "dog".toList]

/-- The trie holding `sampleDictionary`. -/
def sampleTrie : Trie := (Trie.new.loadWords sampleDictionary).getD Trie.new

/-! ## Characters and child slots -/

theorem lower_iff (c : Char) : ('a' ≤ c ∧ c ≤ 'z') ↔ (97 ≤ c.toNat ∧ c.toNat ≤ 122) := by
  rw [Char.le_def, Char.le_def]
  simp only [Char.toNat, UInt32.le_def]
  rfl

theorem slot_eq_some_iff (c : Char) (i : Fin 26) :
    slot c = some i ↔ c.toNat = i.val + 97 := by
  unfold slot
  by_cases h : 0 ≤ (c.toNat : Int) - 97 ∧ (c.toNat : Int) - 97 < 26
  · simp only [h, and_self, dite_true, Option.some.injEq, Fin.ext_iff]
    omega
  · rw [dif_neg h]
    constructor
    · intro h1; cases h1
    · intro h1; omega

theorem slot_of_lower {c : Char} (h : 'a' ≤ c ∧ c ≤ 'z') : ∃ i, slot c = some i := by
  rw [lower_iff] at h
  exact ⟨⟨c.toNat - 97, by omega⟩, (slot_eq_some_iff _ _).2 (by simp only; omega)⟩

theorem lower_of_slot {c : Char} {i : Fin 26} (h : slot c = some i) : 'a' ≤ c ∧ c ≤ 'z' := by
  rw [slot_eq_some_iff] at h
  rw [lower_iff]
  omega

theorem letter_toNat (i : Fin 26) : (letter i).toNat = i.val + 97 := by
  revert i; decide

theorem slot_letter (i : Fin 26) : slot (letter i) = some i :=
  (slot_eq_some_iff _ _).2 (letter_toNat i)

theorem letter_of_slot {c : Char} {i : Fin 26} (h : slot c = some i) : letter i = c := by
  rw [slot_eq_some_iff] at h
  unfold letter
  rw [← h, Char.ofNat_toNat]

theorem slot_inj {c d : Char} {i : Fin 26} (hc : slot c = some i) (hd : slot d = some i) :
    c = d := by
  rw [← letter_of_slot hc, ← letter_of_slot hd]

theorem letter_lt {i j : Fin 26} (h : i < j) : letter i < letter j := by
  rw [Char.lt_def, UInt32.lt_def]
  have hi := letter_toNat i
  have hj := letter_toNat j
  simp only [Char.toNat] at hi hj
  show (letter i).val.toNat < (letter j).val.toNat
  rw [hi, hj]
  have : i.val < j.val := h
  omega

theorem lowercase_nil : lowercase [] := by
  intro c hc; cases hc

theorem lowercase_cons {c : Char} {cs : Word} :
    lowercase (c :: cs) ↔ ('a' ≤ c ∧ c ≤ 'z') ∧ lowercase cs := by
  unfold lowercase
  simp only [List.mem_cons, forall_eq_or_imp]

/-! ## Induction over a node and its present children -/

theorem TrieNode.induct {P : TrieNode → Prop}
    (step : ∀ term ch, (∀ i n, ch i = some n → P n) → P (TrieNode.mk term ch)) :
    ∀ n, P n := by
  intro n
  exact @TrieNode.rec P (fun o => ∀ n, o = some n → P n)
    (fun term ch ih => step term ch ih)
    (fun n h => by cases h)
    (fun val ih n h => by cases h; exact ih)
    n

/-! ## Insert, search and delete below a node -/

namespace TrieNode

theorem searchWord_new {v : Word} (hv : lowercase v) : searchWord new v = some false := by
  cases v with
  | nil => rfl
  | cons d ds =>
    obtain ⟨j, hj⟩ := slot_of_lower (lowercase_cons.1 hv).1
    simp [new, searchWord, hj]

theorem searchWord_total (n : TrieNode) {v : Word} (hv : lowercase v) :
    ∃ b, searchWord n v = some b := by
  induction v generalizing n with
  | nil => cases n; exact ⟨_, rfl⟩
  | cons d ds ih =>
    obtain ⟨term, ch⟩ := n
    obtain ⟨j, hj⟩ := slot_of_lower (lowercase_cons.1 hv).1
    simp only [searchWord, hj]
    cases h : ch j with
    | none => exact ⟨false, rfl⟩
    | some m => exact ih m (lowercase_cons.1 hv).2

theorem insertWord_total (n : TrieNode) {w : Word} (hw : lowercase w) :
    ∃ n1, insertWord n w = some n1 := by
  induction w generalizing n with
  | nil => cases n; exact ⟨_, rfl⟩
  | cons c cs ih =>
    obtain ⟨term, ch⟩ := n
    obtain ⟨i, hi⟩ := slot_of_lower (lowercase_cons.1 hw).1
    simp only [insertWord, hi]
    obtain ⟨m, hm⟩ := ih (match ch i with | none => TrieNode.new | some n => n)
      (lowercase_cons.1 hw).2
    rw [hm]
    exact ⟨_, rfl⟩

theorem searchWord_insertWord {n n1 : TrieNode} {w v : Word} (hv : lowercase v)
    (h : insertWord n w = some n1) :
    searchWord n1 v = (searchWord n v).map (fun b => decide (v = w) || b) := by
  induction w generalizing n n1 v with
  | nil =>
    obtain ⟨term, ch⟩ := n
    simp only [insertWord, Option.some.injEq] at h
    subst h
    cases v with
    | nil => simp [searchWord]
    | cons d ds =>
      obtain ⟨j, hj⟩ := slot_of_lower (lowercase_cons.1 hv).1
      simp only [searchWord, hj]
      cases ch j with
      | none => simp
      | some m =>
        obtain ⟨b, hb⟩ := searchWord_total m (lowercase_cons.1 hv).2
        simp [hb]
  | cons c cs ih =>
    obtain ⟨term, ch⟩ := n
    cases hi : slot c with
    | none => simp [insertWord, hi] at h
    | some i =>
      simp only [insertWord, hi] at h
      cases hm : insertWord (match ch i with | none => TrieNode.new | some n => n) cs with
      | none => simp [hm] at h
      | some m =>
        simp only [hm, Option.some.injEq] at h
        subst h
        cases v with
        | nil => simp [searchWord]
        | cons d ds =>
          obtain ⟨j, hj⟩ := slot_of_lower (lowercase_cons.1 hv).1
          have hds := (lowercase_cons.1 hv).2
          simp only [searchWord, hj]
          by_cases hji : j = i
          · subst hji
            have hdc : d = c := slot_inj hj hi
            subst hdc
            simp only [Function.update_same]
            rw [ih hds hm]
            cases hch : ch j with
            | none => simp [searchWord_new hds]
            | some k =>
              obtain ⟨b, hb⟩ := searchWord_total k hds
              simp [hb]
          · have hdc : d ≠ c := by
              intro e; subst e; rw [hj] at hi; exact hji (Option.some.inj hi)
            rw [Function.update_noteq hji]
            cases hch : ch j with
            | none => simp [hdc]
            | some k =>
              obtain ⟨b, hb⟩ := searchWord_total k hds
              simp [hb, hdc]

theorem hasPath_of_searchWord {n : TrieNode} {w : Word} (h : searchWord n w = some true) :
    hasPath n w = true := by
  induction w generalizing n with
  | nil => cases n; rfl
  | cons c cs ih =>
    obtain ⟨term, ch⟩ := n
    cases hi : slot c with
    | none => simp [searchWord, hi] at h
    | some i =>
      simp only [searchWord, hi] at h
      simp only [hasPath, hi]
      cases hch : ch i with
      | none => simp [hch] at h
      | some k =>
        simp only [hch] at h
        exact ih h

theorem deleteWord_total (n : TrieNode) {w : Word} (hw : lowercase w) :
    ∃ n1, deleteWord n w = some (hasPath n w, n1) := by
  induction w generalizing n with
  | nil => cases n; exact ⟨_, rfl⟩
  | cons c cs ih =>
    obtain ⟨term, ch⟩ := n
    obtain ⟨i, hi⟩ := slot_of_lower (lowercase_cons.1 hw).1
    simp only [deleteWord, hasPath, hi]
    cases hch : ch i with
    | none => exact ⟨_, rfl⟩
    | some k =>
      obtain ⟨k1, hk⟩ := ih k (lowercase_cons.1 hw).2
      simp only [hk]
      exact ⟨_, rfl⟩

theorem deleteWord_of_not_hasPath {n : TrieNode} {w : Word} (hw : lowercase w)
    (h : hasPath n w = false) : deleteWord n w = some (false, n) := by
  induction w generalizing n with
  | nil => cases n; simp [hasPath] at h
  | cons c cs ih =>
    obtain ⟨term, ch⟩ := n
    obtain ⟨i, hi⟩ := slot_of_lower (lowercase_cons.1 hw).1
    simp only [hasPath, hi] at h
    simp only [deleteWord, hi]
    cases hch : ch i with
    | none => rfl
    | some k =>
      simp only [hch] at h
      simp only [ih (lowercase_cons.1 hw).2 h]
      rw [← hch, Function.update_eq_self]

theorem searchWord_deleteWord {n n1 : TrieNode} {r : Bool} {w v : Word} (hv : lowercase v)
    (h : deleteWord n w = some (r, n1)) :
    searchWord n1 v = (searchWord n v).map (fun b => b && !decide (v = w)) := by
  induction w generalizing n n1 v r with
  | nil =>
    obtain ⟨term, ch⟩ := n
    simp only [deleteWord, Option.some.injEq, Prod.mk.injEq] at h
    obtain ⟨-, rfl⟩ := h
    cases v with
    | nil => simp [searchWord]
    | cons d ds =>
      obtain ⟨j, hj⟩ := slot_of_lower (lowercase_cons.1 hv).1
      simp only [searchWord, hj]
      cases ch j with
      | none => simp
      | some m =>
        obtain ⟨b, hb⟩ := searchWord_total m (lowercase_cons.1 hv).2
        simp [hb]
  | cons c cs ih =>
    obtain ⟨term, ch⟩ := n
    cases hi : slot c with
    | none => simp [deleteWord, hi] at h
    | some i =>
      simp only [deleteWord, hi] at h
      cases hch : ch i with
      | none =>
        simp only [hch, Option.some.injEq, Prod.mk.injEq] at h
        obtain ⟨-, rfl⟩ := h
        cases v with
        | nil => simp [searchWord]
        | cons d ds =>
          obtain ⟨j, hj⟩ := slot_of_lower (lowercase_cons.1 hv).1
          have hds := (lowercase_cons.1 hv).2
          simp only [searchWord, hj]
          by_cases hji : j = i
          · subst hji
            simp [hch]
          · have hdc : d ≠ c := by
              intro e; subst e; rw [hj] at hi; exact hji (Option.some.inj hi)
            cases hcj : ch j with
            | none => simp
            | some k =>
              obtain ⟨b, hb⟩ := searchWord_total k hds
              simp [hb, hdc]
      | some k =>
        simp only [hch] at h
        cases hk : deleteWord k cs with
        | none => simp [hk] at h
        | some res =>
          obtain ⟨r1, k1⟩ := res
          simp only [hk, Option.some.injEq, Prod.mk.injEq] at h
          obtain ⟨-, rfl⟩ := h
          cases v with
          | nil => simp [searchWord]
          | cons d ds =>
            obtain ⟨j, hj⟩ := slot_of_lower (lowercase_cons.1 hv).1
            have hds := (lowercase_cons.1 hv).2
            simp only [searchWord, hj]
            by_cases hji : j = i
            · subst hji
              have hdc : d = c := slot_inj hj hi
              subst hdc
              simp only [Function.update_same, hch]
              rw [ih hds hk]
              obtain ⟨b, hb⟩ := searchWord_total k hds
              simp [hb]
            · have hdc : d ≠ c := by
                intro e; subst e; rw [hj] at hi; exact hji (Option.some.inj hi)
              rw [Function.update_noteq hji]
              cases hcj : ch j with
              | none => simp
              | some k2 =>
                obtain ⟨b, hb⟩ := searchWord_total k2 hds
                simp [hb, hdc]

end TrieNode

/-! ## Depth-first enumeration -/

theorem foldl_eq_append_flatMap {α β : Type} (f : List β → α → List β) (g : α → List β)
    (hf : ∀ res a, f res a = res ++ g a) (l : List α) (res : List β) :
    l.foldl f res = res ++ l.flatMap g := by
  induction l generalizing res with
  | nil => simp
  | cons a l ih => simp [List.foldl_cons, hf, ih, List.flatMap_cons, List.append_assoc]

theorem lex_append_left (p : Word) {a b : Word} (h : List.Lex (fun x y : Char => x < y) a b) :
    List.Lex (fun x y : Char => x < y) (p ++ a) (p ++ b) := by
  induction p with
  | nil => exact h
  | cons c p ih => exact List.Lex.cons ih

theorem lex_irrefl (a : Word) : ¬ List.Lex (fun x y : Char => x < y) a a := by
  induction a with
  | nil => intro h; cases h
  | cons c a ih =>
    intro h
    cases h with
    | cons h1 => exact ih h1
    | rel h1 => exact lt_irrefl _ h1

namespace TrieNode

theorem dfs_mk_of_children (term : Bool) (ch : Fin 26 → Option TrieNode)
    (hc : ∀ i pre res, dfsChild (ch i) pre res
      = res ++ (dfsChild (ch i) [] []).map (fun s => pre ++ s))
    (pre : Word) (res : List Word) :
    dfs (mk term ch) pre res
      = res ++ ((if term then [[]] else []) ++ (List.finRange 26).flatMap
          (fun i => (dfsChild (ch i) [] []).map (fun s => letter i :: s))).map
          (fun s => pre ++ s) := by
  rw [dfs]
  rw [foldl_eq_append_flatMap _
    (fun i => (dfsChild (ch i) [] []).map (fun s => (pre ++ [letter i]) ++ s))
    (fun res a => hc a _ res)]
  cases term <;>
    simp [List.map_flatMap, List.map_map, Function.comp_def, List.append_assoc]

theorem dfs_eq (n : TrieNode) :
    ∀ pre res, dfs n pre res = res ++ (dfs n [] []).map (fun s => pre ++ s) := by
  induction n using TrieNode.induct with
  | step term ch ih =>
    have hc : ∀ i pre res, dfsChild (ch i) pre res
        = res ++ (dfsChild (ch i) [] []).map (fun s => pre ++ s) := by
      intro i pre res
      cases hch : ch i with
      | none => simp [dfsChild]
      | some k => simp only [dfsChild]; exact ih i k hch pre res
    intro pre res
    rw [dfs_mk_of_children term ch hc pre res, dfs_mk_of_children term ch hc [] []]
    simp

theorem dfsChild_eq (o : Option TrieNode) (pre : Word) (res : List Word) :
    dfsChild o pre res = res ++ (dfsChild o [] []).map (fun s => pre ++ s) := by
  cases o with
  | none => simp [dfsChild]
  | some k => simp only [dfsChild]; exact dfs_eq k pre res

theorem dfs_mk (term : Bool) (ch : Fin 26 → Option TrieNode) :
    dfs (mk term ch) [] []
      = (if term then [[]] else []) ++ (List.finRange 26).flatMap
          (fun i => (dfsChild (ch i) [] []).map (fun s => letter i :: s)) := by
  rw [dfs_mk_of_children term ch (fun i => dfsChild_eq (ch i)) [] []]
  simp

theorem mem_dfs_iff (n : TrieNode) :
    ∀ w, w ∈ dfs n [] [] ↔ searchWord n w = some true := by
  induction n using TrieNode.induct with
  | step term ch ih =>
    intro w
    rw [dfs_mk]
    cases w with
    | nil => cases term <;> simp [searchWord, List.mem_flatMap]
    | cons d ds =>
      have h0 : ¬ (d :: ds ∈ (if term = true then [([] : Word)] else [])) := by
        cases term <;> simp
      simp only [List.mem_append, h0, false_or, List.mem_flatMap, List.mem_finRange, true_and,
        List.mem_map, List.cons.injEq]
      constructor
      · rintro ⟨i, s, hs, hd, rfl⟩
        have hi : slot d = some i := by rw [← hd]; exact slot_letter i
        simp only [searchWord, hi]
        cases hch : ch i with
        | none => simp [hch, dfsChild] at hs
        | some k =>
          simp only [hch, dfsChild] at hs
          exact (ih i k hch s).1 hs
      · intro h
        cases hi : slot d with
        | none => simp [searchWord, hi] at h
        | some i =>
          simp only [searchWord, hi] at h
          cases hch : ch i with
          | none => simp [hch] at h
          | some k =>
            simp only [hch] at h
            refine ⟨i, ds, ?_, letter_of_slot hi, rfl⟩
            simp only [hch, dfsChild]
            exact (ih i k hch ds).2 h

theorem pairwise_dfs (n : TrieNode) :
    List.Pairwise (List.Lex (fun x y : Char => x < y)) (dfs n [] []) := by
  induction n using TrieNode.induct with
  | step term ch ih =>
    rw [dfs_mk, List.pairwise_append]
    refine ⟨?_, ?_, ?_⟩
    · cases term <;> simp
    · rw [List.pairwise_flatMap]
      constructor
      · intro i _
        apply List.Pairwise.map _ (fun a b hab => List.Lex.cons hab)
        cases hch : ch i with
        | none => simp [dfsChild]
        | some k => simp only [dfsChild]; exact ih i k hch
      · refine (List.pairwise_lt_finRange 26).imp ?_
        intro i j hij x hx y hy
        simp only [List.mem_map] at hx hy
        obtain ⟨x1, -, rfl⟩ := hx
        obtain ⟨y1, -, rfl⟩ := hy
        exact List.Lex.rel (letter_lt hij)
    · intro a ha b hb
      simp only [List.mem_flatMap, List.mem_map] at hb
      obtain ⟨i, -, s, -, rfl⟩ := hb
      have : a = [] := by
        cases term <;> simp at ha
        exact ha
      subst this
      exact List.Lex.nil

theorem prefixSearch_spec (full : Word) (n : TrieNode) {p : Word} (hp : lowercase p) :
    ∃ r, prefixSearch full n p = some r ∧
      (∀ w, w ∈ r ↔ ∃ s, w = full ++ s ∧ searchWord n (p ++ s) = some true) ∧
      List.Pairwise (List.Lex (fun x y : Char => x < y)) r ∧
      (hasPath n p = false → r = []) := by
  induction p generalizing n with
  | nil =>
    refine ⟨dfs n full [], ?_, ?_, ?_, ?_⟩
    · cases n; rfl
    · intro w
      rw [dfs_eq n full []]
      simp only [List.nil_append, List.mem_map, mem_dfs_iff]
      constructor
      · rintro ⟨s, hs, rfl⟩; exact ⟨s, rfl, hs⟩
      · rintro ⟨s, rfl, hs⟩; exact ⟨s, hs, rfl⟩
    · rw [dfs_eq n full []]
      simp only [List.nil_append]
      exact List.Pairwise.map _ (fun a b hab => lex_append_left full hab) (pairwise_dfs n)
    · intro h; cases n; simp [hasPath] at h
  | cons c cs ih =>
    obtain ⟨term, ch⟩ := n
    obtain ⟨i, hi⟩ := slot_of_lower (lowercase_cons.1 hp).1
    simp only [prefixSearch, hasPath, hi, List.cons_append, searchWord]
    cases hch : ch i with
    | none =>
      refine ⟨[], rfl, ?_, List.Pairwise.nil, fun _ => rfl⟩
      intro w
      simp
    | some k => exact ih k (lowercase_cons.1 hp).2

end TrieNode

/-! ## The one-edit loop -/

theorem agree_nil_right (xs : Word) : OneEdit.agree xs [] = true := by
  cases xs <;> rfl

theorem walk_nil_right (c : Ordering) (xs : Word) : OneEdit.walk c xs [] = true := by
  cases xs <;> rfl

theorem loop_after_edit (a b : Word) (fuel : Nat) :
    ∀ i j, (a.length - i) + (b.length - j) < fuel →
      isOneEditDistance.loop a b a.length b.length fuel i j 1
        = some (OneEdit.agree (a.drop i) (b.drop j)) := by
  induction fuel with
  | zero => intro i j h; omega
  | succ fuel ih =>
    intro i j h
    rw [isOneEditDistance.loop]
    by_cases hc : i < a.length ∧ j < b.length
    · obtain ⟨hi, hj⟩ := hc
      rw [if_pos ⟨hi, hj⟩, List.getElem?_eq_getElem hi, List.getElem?_eq_getElem hj,
        List.drop_eq_getElem_cons hi, List.drop_eq_getElem_cons hj]
      by_cases he : a[i] = b[j]
      · simp only [he, ne_eq, not_true_eq_false, if_false, OneEdit.agree, if_true]
        exact ih _ _ (by omega)
      · simp [he, OneEdit.agree]
    · rw [if_neg hc]
      rcases Nat.lt_or_ge i a.length with hi | hi
      · have hj : b.length ≤ j := by
          by_contra hj; exact hc ⟨hi, by omega⟩
        rw [List.drop_eq_nil_of_le hj, agree_nil_right]
      · rw [List.drop_eq_nil_of_le hi]; rfl

theorem loop_before_edit (a b : Word) (fuel : Nat) :
    ∀ i j, (a.length - i) + (b.length - j) < fuel →
      isOneEditDistance.loop a b a.length b.length fuel i j 0
        = some (OneEdit.walk (compare a.length b.length) (a.drop i) (b.drop j)) := by
  induction fuel with
  | zero => intro i j h; omega
  | succ fuel ih =>
    intro i j h
    rw [isOneEditDistance.loop]
    by_cases hc : i < a.length ∧ j < b.length
    · obtain ⟨hi, hj⟩ := hc
      rw [if_pos ⟨hi, hj⟩, List.getElem?_eq_getElem hi, List.getElem?_eq_getElem hj,
        List.drop_eq_getElem_cons hi, List.drop_eq_getElem_cons hj]
      by_cases he : a[i] = b[j]
      · simp only [he, ne_eq, not_true_eq_false, if_false, OneEdit.walk, if_true]
        exact ih _ _ (by omega)
      · have he1 : (some a[i] ≠ some b[j]) := by simpa using he
        rw [if_pos he1]
        simp only [OneEdit.walk, he, if_false, zero_add, gt_iff_lt, lt_irrefl]
        rcases Nat.lt_trichotomy a.length b.length with hl | hl | hl
        · have h1 : ¬ b.length < a.length := by omega
          rw [if_neg h1, if_pos hl, Nat.compare_eq_lt.2 hl]
          rw [loop_after_edit a b fuel i (j + 1) (by omega), List.drop_eq_getElem_cons hi]
        · have h1 : ¬ b.length < a.length := by omega
          have h2 : ¬ a.length < b.length := by omega
          rw [if_neg h1, if_neg h2, Nat.compare_eq_eq.2 hl]
          rw [loop_after_edit a b fuel (i + 1) (j + 1) (by omega)]
        · rw [if_pos hl, Nat.compare_eq_gt.2 hl]
          rw [loop_after_edit a b fuel (i + 1) j (by omega), List.drop_eq_getElem_cons hj]
    · rw [if_neg hc]
      rcases Nat.lt_or_ge i a.length with hi | hi
      · have hj : b.length ≤ j := by
          by_contra hj; exact hc ⟨hi, by omega⟩
        rw [List.drop_eq_nil_of_le hj, walk_nil_right]
      · rw [List.drop_eq_nil_of_le hi]; rfl

theorem isOneEditDistance_eq (a b : Word) :
    isOneEditDistance a b
      = some (decide (((a.length : Int) - (b.length : Int)).natAbs ≤ 1)
          && OneEdit.walk (compare a.length b.length) a b) := by
  unfold isOneEditDistance
  simp only
  by_cases h : ((a.length : Int) - (b.length : Int)).natAbs > 1
  · rw [if_pos h]
    have : ¬ ((a.length : Int) - (b.length : Int)).natAbs ≤ 1 := by omega
    simp [this]
  · rw [if_neg h, loop_before_edit a b _ 0 0 (by omega)]
    have : ((a.length : Int) - (b.length : Int)).natAbs ≤ 1 := by omega
    simp [this]

theorem agree_self (xs : Word) : OneEdit.agree xs xs = true := by
  induction xs with
  | nil => rfl
  | cons x xs ih => simp [OneEdit.agree, ih]

theorem walk_self (c : Ordering) (xs : Word) : OneEdit.walk c xs xs = true := by
  induction xs with
  | nil => rfl
  | cons x xs ih => simp [OneEdit.walk, ih]

theorem agree_eq_of_length {xs ys : Word} (hl : xs.length = ys.length)
    (h : OneEdit.agree xs ys = true) : xs = ys := by
  induction xs generalizing ys with
  | nil => cases ys with
    | nil => rfl
    | cons y ys => simp at hl
  | cons x xs ih => cases ys with
    | nil => simp at hl
    | cons y ys =>
      simp only [List.length_cons, add_left_inj] at hl
      by_cases he : x = y
      · subst he
        simp only [OneEdit.agree, if_true] at h
        rw [ih hl h]
      · simp [OneEdit.agree, he] at h

theorem walk_gt_cons_self (r : Word) : ∀ c, OneEdit.walk .gt (c :: r) r = true := by
  induction r with
  | nil => intro c; rfl
  | cons y ys ih =>
    intro c
    by_cases he : c = y
    · subst he; simp only [OneEdit.walk, if_true]; exact ih c
    · simp only [OneEdit.walk, he, if_false]; exact agree_self _

theorem walk_lt_cons_self (r : Word) : ∀ c, OneEdit.walk .lt r (c :: r) = true := by
  induction r with
  | nil => intro c; rfl
  | cons y ys ih =>
    intro c
    by_cases he : y = c
    · subst he; simp only [OneEdit.walk, if_true]; exact ih y
    · simp only [OneEdit.walk, he, if_false]; exact agree_self _

theorem walk_gt_iff {a b : Word} (hl : a.length = b.length + 1) :
    OneEdit.walk .gt a b = true ↔ ∃ l r c, a = l ++ c :: r ∧ b = l ++ r := by
  constructor
  · intro h
    induction a generalizing b with
    | nil => simp at hl
    | cons x xs ih =>
      cases b with
      | nil => exact ⟨[], xs, x, rfl, by
          simp only [List.length_cons, List.length_nil, zero_add, add_left_eq_self] at hl
          simpa using (List.length_eq_zero.1 hl).symm⟩
      | cons y ys =>
        simp only [List.length_cons, add_left_inj] at hl
        by_cases he : x = y
        · subst he
          simp only [OneEdit.walk, if_true] at h
          obtain ⟨l, r, c, h1, h2⟩ := ih hl h
          exact ⟨x :: l, r, c, by simp [h1], by simp [h2]⟩
        · simp only [OneEdit.walk, he, if_false] at h
          have := agree_eq_of_length (by simpa using hl) h
          exact ⟨[], xs, x, rfl, by simp [this]⟩
  · rintro ⟨l, r, c, rfl, rfl⟩
    clear hl
    induction l with
    | nil => exact walk_gt_cons_self r c
    | cons x l ih => simp only [List.cons_append, OneEdit.walk, if_true]; exact ih

theorem walk_lt_iff {a b : Word} (hl : a.length + 1 = b.length) :
    OneEdit.walk .lt a b = true ↔ ∃ l r c, a = l ++ r ∧ b = l ++ c :: r := by
  constructor
  · intro h
    induction a generalizing b with
    | nil =>
      cases b with
      | nil => simp at hl
      | cons y ys =>
        simp only [List.length_nil, zero_add, List.length_cons, self_eq_add_left] at hl
        exact ⟨[], [], y, rfl, by simpa using List.length_eq_zero.1 hl⟩
    | cons x xs ih =>
      cases b with
      | nil => simp at hl
      | cons y ys =>
        simp only [List.length_cons, add_left_inj] at hl
        by_cases he : x = y
        · subst he
          simp only [OneEdit.walk, if_true] at h
          obtain ⟨l, r, c, h1, h2⟩ := ih hl h
          exact ⟨x :: l, r, c, by simp [h1], by simp [h2]⟩
        · simp only [OneEdit.walk, he, if_false] at h
          have := agree_eq_of_length (by simpa using hl) h
          exact ⟨[], x :: xs, y, rfl, by simp [this]⟩
  · rintro ⟨l, r, c, rfl, rfl⟩
    clear hl
    induction l with
    | nil => exact walk_lt_cons_self r c
    | cons x l ih => simp only [List.cons_append, OneEdit.walk, if_true]; exact ih

theorem walk_eq_iff {a b : Word} (hl : a.length = b.length) :
    OneEdit.walk .eq a b = true ↔ (a = b ∨ ∃ l r c d, a = l ++ c :: r ∧ b = l ++ d :: r) := by
  constructor
  · intro h
    induction a generalizing b with
    | nil =>
      cases b with
      | nil => exact Or.inl rfl
      | cons y ys => simp at hl
    | cons x xs ih =>
      cases b with
      | nil => simp at hl
      | cons y ys =>
        simp only [List.length_cons, add_left_inj] at hl
        by_cases he : x = y
        · subst he
          simp only [OneEdit.walk, if_true] at h
          rcases ih hl h with h1 | ⟨l, r, c, d, h1, h2⟩
          · exact Or.inl (by rw [h1])
          · exact Or.inr ⟨x :: l, r, c, d, by simp [h1], by simp [h2]⟩
        · simp only [OneEdit.walk, he, if_false] at h
          have := agree_eq_of_length hl h
          exact Or.inr ⟨[], xs, x, y, rfl, by simp [this]⟩
  · rintro (rfl | ⟨l, r, c, d, rfl, rfl⟩)
    · exact walk_self _ _
    · clear hl
      induction l with
      | nil =>
        by_cases he : c = d
        · simp only [List.nil_append, OneEdit.walk, he, if_true]; exact walk_self _ _
        · simp only [List.nil_append, OneEdit.walk, he, if_false]; exact agree_self _
      | cons x l ih => simp only [List.cons_append, OneEdit.walk, if_true]; exact ih

theorem isOneEditDistance_true_iff (a b : Word) :
    isOneEditDistance a b = some true ↔ AtMostOneEdit a b := by
  rw [isOneEditDistance_eq]
  simp only [Option.some.injEq, Bool.and_eq_true, decide_eq_true_eq]
  unfold AtMostOneEdit
  constructor
  · rintro ⟨hl, hw⟩
    rcases Nat.lt_trichotomy a.length b.length with h | h | h
    · rw [Nat.compare_eq_lt.2 h] at hw
      exact Or.inr (Or.inl ((walk_lt_iff (by omega)).1 hw))
    · rw [Nat.compare_eq_eq.2 h] at hw
      rcases (walk_eq_iff h).1 hw with h1 | h1
      · exact Or.inl h1
      · exact Or.inr (Or.inr (Or.inr h1))
    · rw [Nat.compare_eq_gt.2 h] at hw
      exact Or.inr (Or.inr (Or.inl ((walk_gt_iff (by omega)).1 hw)))
  · rintro (h | h | h | h)
    · subst h
      simp [walk_self]
    · have hl : a.length + 1 = b.length := by
        obtain ⟨l, r, c, rfl, rfl⟩ := h; simp; omega
      have hlt : a.length < b.length := by omega
      rw [Nat.compare_eq_lt.2 hlt]
      exact ⟨by omega, (walk_lt_iff hl).2 h⟩
    · have hl : a.length = b.length + 1 := by
        obtain ⟨l, r, c, rfl, rfl⟩ := h; simp; omega
      have hlt : b.length < a.length := by omega
      rw [Nat.compare_eq_gt.2 hlt]
      exact ⟨by omega, (walk_gt_iff hl).2 h⟩
    · have hl : a.length = b.length := by
        obtain ⟨l, r, c, d, rfl, rfl⟩ := h; simp
      rw [Nat.compare_eq_eq.2 hl]
      exact ⟨by omega, (walk_eq_iff hl).2 (Or.inr h)⟩

/-! ### Levenshtein distance -/

namespace TrieNode

theorem hasPath_of_append {n : TrieNode} {w s : Word} (h : hasPath n (w ++ s) = true) :
    hasPath n w = true := by
  induction w generalizing n with
  | nil => cases n; rfl
  | cons c cs ih =>
    obtain ⟨term, ch⟩ := n
    cases hi : slot c with
    | none => simp [hasPath, hi] at h
    | some i =>
      simp only [List.cons_append, hasPath, hi] at h
      simp only [hasPath, hi]
      cases hch : ch i with
      | none => simp [hch] at h
      | some k =>
        simp only [hch] at h
        exact ih h

end TrieNode

theorem trie_insertWord_total (t : Trie) {w : Word} (hw : lowercase w) :
    ∃ t1, t.insertWord w = some t1 := by
  obtain ⟨n1, hn⟩ := TrieNode.insertWord_total t.root hw
  exact ⟨⟨n1⟩, by simp [Trie.insertWord, hn]⟩

theorem trie_searchWord_total (t : Trie) {v : Word} (hv : lowercase v) :
    ∃ b, t.searchWord v = some b :=
  TrieNode.searchWord_total t.root hv

theorem trie_searchWord_insertWord {t t1 : Trie} {w v : Word} (hv : lowercase v)
    (h : t.insertWord w = some t1) :
    t1.searchWord v = (t.searchWord v).map (fun b => decide (v = w) || b) := by
  unfold Trie.insertWord at h
  cases hn : t.root.insertWord w with
  | none => simp [hn] at h
  | some n1 =>
    simp only [hn, Option.map_some', Option.some.injEq] at h
    subst h
    exact TrieNode.searchWord_insertWord hv hn

theorem trie_deleteWord_total (t : Trie) {w : Word} (hw : lowercase w) :
    ∃ t1, t.deleteWord w = some (t.hasPath w, t1) := by
  obtain ⟨n1, hn⟩ := TrieNode.deleteWord_total t.root hw
  exact ⟨⟨n1⟩, by simp [Trie.deleteWord, Trie.hasPath, hn]⟩

theorem trie_searchWord_deleteWord {t t1 : Trie} {r : Bool} {w v : Word} (hv : lowercase v)
    (h : t.deleteWord w = some (r, t1)) :
    t1.searchWord v = (t.searchWord v).map (fun b => b && !decide (v = w)) := by
  unfold Trie.deleteWord at h
  cases hn : t.root.deleteWord w with
  | none => simp [hn] at h
  | some res =>
    obtain ⟨r1, n1⟩ := res
    simp only [hn, Option.map_some', Option.some.injEq, Prod.mk.injEq] at h
    obtain ⟨-, rfl⟩ := h
    exact TrieNode.searchWord_deleteWord hv hn

theorem trie_deleteWord_of_not_hasPath {t : Trie} {w : Word} (hw : lowercase w)
    (h : t.hasPath w = false) : t.deleteWord w = some (false, t) := by
  unfold Trie.deleteWord
  rw [TrieNode.deleteWord_of_not_hasPath hw h]
  rfl

theorem trie_loadWords_spec (ws : List Word) (hws : ∀ x ∈ ws, lowercase x) (t : Trie) :
    ∃ t1, t.loadWords ws = some t1 ∧
      ∀ v, lowercase v →
        t1.searchWord v = (t.searchWord v).map (fun b => decide (v ∈ ws) || b) := by
  induction ws generalizing t with
  | nil =>
    refine ⟨t, rfl, ?_⟩
    intro v hv
    obtain ⟨b, hb⟩ := trie_searchWord_total t hv
    simp [hb]
  | cons x xs ih =>
    obtain ⟨t1, h1⟩ := trie_insertWord_total t (hws x (List.mem_cons_self _ _))
    obtain ⟨t2, h2, h3⟩ := ih (fun y hy => hws y (List.mem_cons_of_mem _ hy)) t1
    refine ⟨t2, ?_, ?_⟩
    · unfold Trie.loadWords at h2 ⊢
      rw [List.foldlM_cons, h1]
      exact h2
    · intro v hv
      rw [h3 v hv, trie_searchWord_insertWord hv h1]
      obtain ⟨b, hb⟩ := trie_searchWord_total t hv
      simp only [hb, Option.map_some', Option.some.injEq, List.mem_cons]
      by_cases e1 : v = x <;> by_cases e2 : v ∈ xs <;> simp [e1, e2]


/-! ## The claims -/

/-- C1 (round trip).  For every trie `t` and every word `w` over `'a'..'z'`, the
empty word included, `insertWord(w)` succeeds and `searchWord(w)` on the
resulting trie returns true. -/
theorem insertWord_then_searchWord (t : Trie) (w : Word) (hw : lowercase w) :
    ∃ t1, t.insertWord w = some t1 ∧ t1.searchWord w = some true := by
  obtain ⟨t1, h1⟩ := trie_insertWord_total t hw
  refine ⟨t1, h1, ?_⟩
  rw [trie_searchWord_insertWord hw h1]
  obtain ⟨b, hb⟩ := trie_searchWord_total t hw
  simp [hb]

theorem insertWord_then_searchWord_witness :
    lowercase "care".toList ∧
      ∃ t1, sampleTrie.insertWord "care".toList = some t1 ∧
        t1.searchWord "care".toList = some true :=
  ⟨by decide, insertWord_then_searchWord sampleTrie "care".toList (by decide)⟩

/-- C2 (stored-word semantics).  For every list `ws` of words over `'a'..'z'`
and every word `w` over `'a'..'z'`, loading `ws` into the empty trie succeeds
and `searchWord(w)` on the result is true exactly when `w` is an element of
`ws` (and false otherwise).  With `w` a proper prefix of inserted words, or the
empty word, this gives false unless `w` itself was inserted. -/
theorem searchWord_loadWords (ws : List Word) (w : Word)
    (hws : ∀ x ∈ ws, lowercase x) (hw : lowercase w) :
    ∃ t, Trie.new.loadWords ws = some t ∧ t.searchWord w = some (decide (w ∈ ws)) := by
  obtain ⟨t, h1, h2⟩ := trie_loadWords_spec ws hws Trie.new
  refine ⟨t, h1, ?_⟩
  rw [h2 w hw]
  have : Trie.new.searchWord w = some false := TrieNode.searchWord_new hw
  simp [this]

theorem searchWord_loadWords_witness :
    (∀ x ∈ sampleDictionary, lowercase x) ∧ lowercase "ca".toList ∧
      ∃ t, Trie.new.loadWords sampleDictionary = some t ∧
        t.searchWord "ca".toList = some (decide ("ca".toList ∈ sampleDictionary)) :=
  ⟨by decide, by decide,
    searchWord_loadWords sampleDictionary "ca".toList (by decide) (by decide)⟩

/-- C3 (delete of a stored word).  For every trie `t` and word `w` over
`'a'..'z'` with `searchWord(w)` true on `t`, `deleteWord(w)` returns true and
`searchWord(w)` on the resulting trie returns false. -/
theorem deleteWord_then_searchWord (t : Trie) (w : Word) (hw : lowercase w)
    (hs : t.searchWord w = some true) :
    ∃ t1, t.deleteWord w = some (true, t1) ∧ t1.searchWord w = some false := by
  obtain ⟨t1, h1⟩ := trie_deleteWord_total t hw
  have hp : t.hasPath w = true := TrieNode.hasPath_of_searchWord hs
  rw [hp] at h1
  refine ⟨t1, h1, ?_⟩
  rw [trie_searchWord_deleteWord hw h1, hs]
  simp

theorem deleteWord_then_searchWord_witness :
    lowercase "car".toList ∧ sampleTrie.searchWord "car".toList = some true ∧
      ∃ t1, sampleTrie.deleteWord "car".toList = some (true, t1) ∧
        t1.searchWord "car".toList = some false :=
  ⟨by decide, by decide,
    deleteWord_then_searchWord sampleTrie "car".toList (by decide) (by decide)⟩

/-- C4 (delete success contract).  For every trie `t` and word `w` over
`'a'..'z'`, `deleteWord(w)` returns true if and only if the full letter path of
`w` exists in `t`, whatever the terminating flag of the final node.  In
particular, when `w` is a prefix of a stored word `w ++ s` and `searchWord(w)`
is false, `deleteWord(w)` still returns true and `searchWord(w)` is false
afterwards. -/
theorem deleteWord_true_iff_hasPath (t : Trie) (w : Word) (hw : lowercase w) :
    (∃ r t1, t.deleteWord w = some (r, t1) ∧ (r = true ↔ t.hasPath w = true)) ∧
      (∀ s, t.searchWord (w ++ s) = some true → t.searchWord w = some false →
        ∃ t1, t.deleteWord w = some (true, t1) ∧ t1.searchWord w = some false) := by
  obtain ⟨t1, h1⟩ := trie_deleteWord_total t hw
  refine ⟨⟨_, t1, h1, Iff.rfl⟩, ?_⟩
  intro s hs hf
  have hp : t.hasPath w = true :=
    TrieNode.hasPath_of_append (TrieNode.hasPath_of_searchWord hs)
  rw [hp] at h1
  refine ⟨t1, h1, ?_⟩
  rw [trie_searchWord_deleteWord hw h1, hf]
  simp

theorem deleteWord_true_iff_hasPath_witness :
    lowercase "ca".toList ∧
      (∃ r t1, sampleTrie.deleteWord "ca".toList = some (r, t1) ∧
        (r = true ↔ sampleTrie.hasPath "ca".toList = true)) ∧
      sampleTrie.searchWord ("ca".toList ++ "t".toList) = some true ∧
      sampleTrie.searchWord "ca".toList = some false ∧
      ∃ t1, sampleTrie.deleteWord "ca".toList = some (true, t1) ∧
        t1.searchWord "ca".toList = some false :=
  ⟨by decide, (deleteWord_true_iff_hasPath sampleTrie "ca".toList (by decide)).1,
    by decide, by decide,
    (deleteWord_true_iff_hasPath sampleTrie "ca".toList (by decide)).2 "t".toList
      (by decide) (by decide)⟩

/-- C5 (delete failure is atomic).  For every trie `t` and word `w` over
`'a'..'z'`, if some child slot along the path of `w` is absent then
`deleteWord(w)` returns false and the trie after the call is exactly `t`. -/
theorem deleteWord_absent_unchanged (t : Trie) (w : Word) (hw : lowercase w)
    (h : t.hasPath w = false) : t.deleteWord w = some (false, t) :=
  trie_deleteWord_of_not_hasPath hw h

theorem deleteWord_absent_unchanged_witness :
    lowercase "cab".toList ∧ sampleTrie.hasPath "cab".toList = false ∧
      sampleTrie.deleteWord "cab".toList = some (false, sampleTrie) :=
  ⟨by decide, by decide,
    deleteWord_absent_unchanged sampleTrie "cab".toList (by decide) (by decide)⟩

/-- C6, as stated, fails when `old` and `new` are the same word: on the sample
trie `searchWord("cat")` is true, `updateWord("cat", "cat")` returns true, and
`searchWord("cat")` is still true afterwards. -/
theorem updateWord_same_word_counterexample :
    lowercase "cat".toList ∧ sampleTrie.searchWord "cat".toList = some true ∧
      ∃ t1, sampleTrie.updateWord "cat".toList "cat".toList = some (true, t1) ∧
        t1.searchWord "cat".toList = some true :=
  ⟨by decide, by decide, _, rfl, by decide⟩

/-- C6 (update of a stored word), amended.  For every trie `t` and all words
`old`, `new` over `'a'..'z'` with `old ≠ new` and `searchWord(old)` true on `t`,
`updateWord(old, new)` returns true and afterwards `searchWord(old)` is false
and `searchWord(new)` is true. -/
theorem updateWord_then_searchWord (t : Trie) (old new : Word)
    (hold : lowercase old) (hnew : lowercase new) (hne : old ≠ new)
    (hs : t.searchWord old = some true) :
    ∃ t2, t.updateWord old new = some (true, t2) ∧
      t2.searchWord old = some false ∧ t2.searchWord new = some true := by
  obtain ⟨t1, h1⟩ := trie_deleteWord_total t hold
  have hp : t.hasPath old = true := TrieNode.hasPath_of_searchWord hs
  rw [hp] at h1
  obtain ⟨t2, h2⟩ := trie_insertWord_total t1 hnew
  refine ⟨t2, ?_, ?_, ?_⟩
  · simp [Trie.updateWord, h1, h2]
  · rw [trie_searchWord_insertWord hold h2, trie_searchWord_deleteWord hold h1, hs]
    simp [hne]
  · rw [trie_searchWord_insertWord hnew h2]
    obtain ⟨b, hb⟩ := trie_searchWord_total t1 hnew
    simp [hb]

theorem updateWord_then_searchWord_witness :
    lowercase "cat".toList ∧ lowercase "cot".toList ∧ "cat".toList ≠ "cot".toList ∧
      sampleTrie.searchWord "cat".toList = some true ∧
      ∃ t2, sampleTrie.updateWord "cat".toList "cot".toList = some (true, t2) ∧
        t2.searchWord "cat".toList = some false ∧ t2.searchWord "cot".toList = some true :=
  ⟨by decide, by decide, by decide, by decide,
    updateWord_then_searchWord sampleTrie "cat".toList "cot".toList
      (by decide) (by decide) (by decide) (by decide)⟩

/-- C7 (update is delete-then-conditional-insert).  For every trie `t` and words
`old`, `new` over `'a'..'z'`, `deleteWord(old)` on `t` yields some value `d` and
trie `t1`, and `updateWord(old, new)` returns exactly `d`; when `d` is false the
trie after the update is `t` itself, and when `d` is true it is the result of
`insertWord(new)` on `t1`. -/
theorem updateWord_eq_deleteWord_insertWord (t : Trie) (old new : Word)
    (hold : lowercase old) (hnew : lowercase new) :
    ∃ d t1 t2, t.deleteWord old = some (d, t1) ∧ t.updateWord old new = some (d, t2) ∧
      (d = false → t2 = t) ∧ (d = true → t1.insertWord new = some t2) := by
  obtain ⟨t1, h1⟩ := trie_deleteWord_total t hold
  cases hp : t.hasPath old with
  | false =>
    have h0 := trie_deleteWord_of_not_hasPath hold hp
    refine ⟨false, t, t, h0, ?_, fun _ => rfl, fun h => (by cases h)⟩
    simp [Trie.updateWord, h0]
  | true =>
    rw [hp] at h1
    obtain ⟨t2, h2⟩ := trie_insertWord_total t1 hnew
    refine ⟨true, t1, t2, h1, ?_, fun h => (by cases h), fun _ => h2⟩
    simp [Trie.updateWord, h1, h2]

theorem updateWord_eq_deleteWord_insertWord_witness :
    lowercase "cow".toList ∧ lowercase "cot".toList ∧
      ∃ d t1 t2, sampleTrie.deleteWord "cow".toList = some (d, t1) ∧
        sampleTrie.updateWord "cow".toList "cot".toList = some (d, t2) ∧
        (d = false → t2 = sampleTrie) ∧ (d = true → t1.insertWord "cot".toList = some t2) :=
  ⟨by decide, by decide,
    updateWord_eq_deleteWord_insertWord sampleTrie "cow".toList "cot".toList
      (by decide) (by decide)⟩

/-- C8 (prefix enumeration is sound and complete).  For every trie `t` and prefix
`p` over `'a'..'z'`, `prefixSearch(p)` returns a list `r` such that a word `w`
(any word, so in particular any word over `'a'..'z'`) occurs in `r` if and only
if `p` is a prefix of `w` and `searchWord(w)` is true on `t`; no word occurs in
`r` twice; and `r` is empty when the path of `p` does not exist or when no
stored word starts with `p`. -/
theorem prefixSearch_sound_complete (t : Trie) (p : Word) (hp : lowercase p) :
    ∃ r, t.prefixSearch p = some r ∧
      (∀ w, w ∈ r ↔ p <+: w ∧ t.searchWord w = some true) ∧
      r.Nodup ∧
      (t.hasPath p = false → r = []) ∧
      ((∀ w, p <+: w → t.searchWord w ≠ some true) → r = []) := by
  obtain ⟨r, h1, h2, h3, h4⟩ := TrieNode.prefixSearch_spec p t.root hp
  have hmem : ∀ w, w ∈ r ↔ p <+: w ∧ t.searchWord w = some true := by
    intro w
    rw [h2 w]
    constructor
    · rintro ⟨s, rfl, hs⟩; exact ⟨⟨s, rfl⟩, hs⟩
    · rintro ⟨⟨s, rfl⟩, hs⟩; exact ⟨s, rfl, hs⟩
  refine ⟨r, h1, hmem, ?_, h4, ?_⟩
  · refine List.Pairwise.imp ?_ h3
    intro a b hab e
    subst e
    exact lex_irrefl a hab
  · intro hnone
    apply List.eq_nil_iff_forall_not_mem.2
    intro w hw
    exact hnone w ((hmem w).1 hw).1 ((hmem w).1 hw).2

theorem prefixSearch_sound_complete_witness :
    lowercase "ca".toList ∧
      ∃ r, sampleTrie.prefixSearch "ca".toList = some r ∧
        (∀ w, w ∈ r ↔ "ca".toList <+: w ∧ sampleTrie.searchWord w = some true) ∧
        r.Nodup ∧
        (sampleTrie.hasPath "ca".toList = false → r = []) ∧
        ((∀ w, "ca".toList <+: w → sampleTrie.searchWord w ≠ some true) → r = []) :=
  ⟨by decide, prefixSearch_sound_complete sampleTrie "ca".toList (by decide)⟩

/-- C9 (prefix enumeration order).  For every trie `t` and prefix `p` over
`'a'..'z'`, the list returned by `prefixSearch(p)` is strictly increasing in the
lexicographic order of words: every element is lexicographically below every
later element.  On the trie built from `{"cat", "car", "cart", "dog"}`,
`prefixSearch("ca")` is `["car", "cart", "cat"]` and `prefixSearch("z")` is
empty. -/
theorem prefixSearch_strictly_increasing (t : Trie) (p : Word) (hp : lowercase p) :
    (∃ r, t.prefixSearch p = some r ∧
      r.Pairwise (List.Lex (fun x y : Char => x < y))) ∧
    (Trie.new.loadWords ["cat".toList, "car".toList, "cart".toList, "dog".toList]).bind
        (fun d => d.prefixSearch "ca".toList)
      = some ["car".toList, "cart".toList, "cat".toList] ∧
    (Trie.new.loadWords ["cat".toList, "car".toList, "cart".toList, "dog".toList]).bind
        (fun d => d.prefixSearch "z".toList)
      = some [] := by
  obtain ⟨r, h1, -, h3, -⟩ := TrieNode.prefixSearch_spec p t.root hp
  exact ⟨⟨r, h1, h3⟩, by decide, by decide⟩

theorem prefixSearch_strictly_increasing_witness :
    lowercase "c".toList ∧
      ∃ r, sampleTrie.prefixSearch "c".toList = some r ∧
        r.Pairwise (List.Lex (fun x y : Char => x < y)) :=
  ⟨by decide, (prefixSearch_strictly_increasing sampleTrie "c".toList (by decide)).1⟩

theorem size_mk (term : Bool) (ch : Fin 26 → Option TrieNode) :
    TrieNode.size (TrieNode.mk term ch)
      = 1 + ((List.finRange 26).map (fun i => TrieNode.sizeChild (ch i))).sum := by
  rw [TrieNode.size]

theorem size_pos (n : TrieNode) : 1 ≤ n.size := by
  obtain ⟨term, ch⟩ := n
  rw [size_mk]
  omega

theorem push_children_eq (ch : Fin 26 → Option TrieNode) (pre : Word)
    (q : List (TrieNode × Word)) :
    (List.finRange 26).foldl
        (fun q i => match ch i with
          | none => q
          | some c => q ++ [(c, pre ++ [letter i])]) q
      = q ++ (List.finRange 26).flatMap
          (fun i => match ch i with
            | none => []
            | some c => [(c, pre ++ [letter i])]) := by
  apply foldl_eq_append_flatMap
  intro res a
  cases ch a <;> simp

theorem mem_children_iff (ch : Fin 26 → Option TrieNode) (pre : Word) (e : TrieNode × Word) :
    e ∈ (List.finRange 26).flatMap
        (fun i => match ch i with
          | none => []
          | some c => [(c, pre ++ [letter i])])
      ↔ ∃ i c, ch i = some c ∧ e = (c, pre ++ [letter i]) := by
  simp only [List.mem_flatMap, List.mem_finRange, true_and]
  constructor
  · rintro ⟨i, hi⟩
    cases hch : ch i with
    | none => simp [hch] at hi
    | some c =>
      simp only [hch, List.mem_singleton] at hi
      exact ⟨i, c, hch, hi⟩
  · rintro ⟨i, c, hch, rfl⟩
    exact ⟨i, by simp [hch]⟩

theorem size_children (ch : Fin 26 → Option TrieNode) (pre : Word) (l : List (Fin 26)) :
    ((l.flatMap (fun i => match ch i with
          | none => []
          | some c => [(c, pre ++ [letter i])])).map
        (fun e : TrieNode × Word => e.1.size)).sum
      = (l.map (fun i => TrieNode.sizeChild (ch i))).sum := by
  induction l with
  | nil => rfl
  | cons i l ih =>
    simp only [List.flatMap_cons, List.map_append, List.sum_append, List.map_cons, List.sum_cons,
      ih]
    cases hch : ch i <;> simp [TrieNode.sizeChild]

theorem scanHit_mk (descend : Word → Bool) (word : Word) (term : Bool)
    (ch : Fin 26 → Option TrieNode) (pre w : Word) :
    ScanHit descend word (TrieNode.mk term ch, pre) w ↔
      (w = pre ∧ term = true ∧ isOneEditDistance word pre = some true) ∨
      (descend pre = true ∧ ∃ i c, ch i = some c ∧
        ScanHit descend word (c, pre ++ [letter i]) w) := by
  constructor
  · rintro ⟨s, rfl, hs, hd, hr⟩
    cases s with
    | nil =>
      left
      simp only [TrieNode.searchWord, Option.some.injEq] at hs
      simp only [List.append_nil] at hd ⊢
      exact ⟨trivial, hs, hd⟩
    | cons d ds =>
      right
      cases hi : slot d with
      | none => simp [TrieNode.searchWord, hi] at hs
      | some i =>
        simp only [TrieNode.searchWord, hi] at hs
        cases hch : ch i with
        | none => simp [hch] at hs
        | some c =>
          simp only [hch] at hs
          have hl : letter i = d := letter_of_slot hi
          refine ⟨?_, i, c, hch, ds, ?_, hs, hd, ?_⟩
          · have := hr [] (d :: ds) rfl (by simp)
            simpa using this
          · simp [hl]
          · intro s1 s2 h12 hne
            have := hr (d :: s1) s2 (by simp [h12]) hne
            simpa [hl] using this
  · rintro (⟨rfl, ht, hd⟩ | ⟨hD, i, c, hch, s, hw, hs, hd, hr⟩)
    · refine ⟨[], by simp, by simp [TrieNode.searchWord, ht], by simpa using hd, ?_⟩
      intro s1 s2 h12 hne
      exfalso
      have := congrArg List.length h12
      simp only [List.length_nil, List.length_append] at this
      exact hne (List.length_eq_zero.1 (by omega))
    · simp only at hw hs hr
      refine ⟨letter i :: s, by simp [hw], ?_, hd, ?_⟩
      · simp only [TrieNode.searchWord, slot_letter, hch]
        exact hs
      · intro s1 s2 h12 hne
        cases s1 with
        | nil => simpa using hD
        | cons x s1 =>
          simp only [List.cons_append, List.cons.injEq] at h12
          obtain ⟨rfl, h12⟩ := h12
          have := hr s1 s2 h12 hne
          simpa using this

theorem scanLoop_cons (descend : Word → Bool) (word : Word) (fuel : Nat) (term : Bool)
    (ch : Fin 26 → Option TrieNode) (pre : Word) (q : List (TrieNode × Word))
    (sugg : List Word) (b : Bool) (hb : isOneEditDistance word pre = some b) :
    scanLoop descend word (fuel + 1) ((TrieNode.mk term ch, pre) :: q) sugg
      = scanLoop descend word fuel
          (if descend pre = true then
            q ++ (List.finRange 26).flatMap (fun i => match ch i with
              | none => []
              | some c => [(c, pre ++ [letter i])])
           else q)
          (if (term && b) = true then (if pre ∈ sugg then sugg else sugg ++ [pre])
           else sugg) := by
  rw [scanLoop, hb, push_children_eq]
  cases term <;> rfl

theorem mem_insert_suggestion (term b : Bool) (pre w : Word) (sugg : List Word) :
    w ∈ (if (term && b) = true then (if pre ∈ sugg then sugg else sugg ++ [pre])
        else sugg) ↔ w ∈ sugg ∨ (w = pre ∧ term = true ∧ b = true) := by
  by_cases hc : (term && b) = true
  · have hc2 : term = true ∧ b = true := by simpa using hc
    rw [if_pos hc]
    by_cases hp : pre ∈ sugg
    · rw [if_pos hp]
      constructor
      · exact Or.inl
      · rintro (h | ⟨rfl, -⟩)
        · exact h
        · exact hp
    · rw [if_neg hp]
      simp [hc2]
  · rw [if_neg hc]
    have hc2 : ¬ (term = true ∧ b = true) := by simpa using hc
    constructor
    · exact Or.inl
    · rintro (h | ⟨-, h⟩)
      · exact h
      · exact absurd h hc2

theorem nodup_insert_suggestion (term b : Bool) (pre : Word) (sugg : List Word)
    (hn : sugg.Nodup) :
    (if (term && b) = true then (if pre ∈ sugg then sugg else sugg ++ [pre])
        else sugg).Nodup := by
  split
  · split
    · exact hn
    · rename_i hp
      exact List.Nodup.append hn (List.nodup_singleton _) (by simpa using hp)
  · exact hn

theorem exists_mem_pushed (descend : Word → Bool) (word : Word)
    (ch : Fin 26 → Option TrieNode) (pre w : Word) (q : List (TrieNode × Word)) :
    (∃ e ∈ (if descend pre = true then
          q ++ (List.finRange 26).flatMap (fun i => match ch i with
            | none => []
            | some c => [(c, pre ++ [letter i])])
         else q), ScanHit descend word e w) ↔
      (∃ e ∈ q, ScanHit descend word e w) ∨
      (descend pre = true ∧ ∃ i c, ch i = some c ∧
        ScanHit descend word (c, pre ++ [letter i]) w) := by
  by_cases hD : descend pre = true
  · rw [if_pos hD]
    simp only [List.mem_append, mem_children_iff, hD, true_and]
    constructor
    · rintro ⟨e, he | ⟨i, c, hch, rfl⟩, hh⟩
      · exact Or.inl ⟨e, he, hh⟩
      · exact Or.inr ⟨i, c, hch, hh⟩
    · rintro (⟨e, he, hh⟩ | ⟨i, c, hch, hh⟩)
      · exact ⟨e, Or.inl he, hh⟩
      · exact ⟨_, Or.inr ⟨i, c, hch, rfl⟩, hh⟩
  · rw [if_neg hD]
    simp [hD]

theorem size_pushed (descend : Word → Bool) (ch : Fin 26 → Option TrieNode) (pre : Word)
    (q : List (TrieNode × Word)) :
    ((if descend pre = true then
          q ++ (List.finRange 26).flatMap (fun i => match ch i with
            | none => []
            | some c => [(c, pre ++ [letter i])])
         else q).map (fun e : TrieNode × Word => e.1.size)).sum
      ≤ (q.map (fun e : TrieNode × Word => e.1.size)).sum
        + ((List.finRange 26).map (fun i => TrieNode.sizeChild (ch i))).sum := by
  split
  · rw [List.map_append, List.sum_append, size_children]
  · omega

theorem or_shuffle (S A Q K : Prop) : ((S ∨ A) ∨ (Q ∨ K)) ↔ (S ∨ ((A ∨ K) ∨ Q)) := by
  constructor
  · rintro ((h | h) | (h | h))
    · exact Or.inl h
    · exact Or.inr (Or.inl (Or.inl h))
    · exact Or.inr (Or.inr h)
    · exact Or.inr (Or.inl (Or.inr h))
  · rintro (h | ((h | h) | h))
    · exact Or.inl (Or.inl h)
    · exact Or.inl (Or.inr h)
    · exact Or.inr (Or.inr h)
    · exact Or.inr (Or.inl h)

theorem scanLoop_spec (descend : Word → Bool) (word : Word) (fuel : Nat) :
    ∀ (q : List (TrieNode × Word)) (sugg : List Word),
      (q.map (fun e : TrieNode × Word => e.1.size)).sum ≤ fuel → sugg.Nodup →
      ∃ r, scanLoop descend word fuel q sugg = some r ∧ r.Nodup ∧
        ∀ w, w ∈ r ↔ w ∈ sugg ∨ ∃ e ∈ q, ScanHit descend word e w := by
  induction fuel with
  | zero =>
    intro q sugg hq hn
    cases q with
    | nil => exact ⟨sugg, by simp [scanLoop], hn, by simp⟩
    | cons e q =>
      exfalso
      have := size_pos e.1
      simp only [List.map_cons, List.sum_cons] at hq
      omega
  | succ fuel ih =>
    intro q sugg hq hn
    cases q with
    | nil => exact ⟨sugg, by simp [scanLoop], hn, by simp⟩
    | cons e q =>
      obtain ⟨⟨term, ch⟩, pre⟩ := e
      simp only [List.map_cons, List.sum_cons, size_mk] at hq
      obtain ⟨b, hb⟩ : ∃ b, isOneEditDistance word pre = some b :=
        ⟨_, isOneEditDistance_eq word pre⟩
      have hsz := size_pushed descend ch pre q
      obtain ⟨r, hr, hrn, hmem⟩ := ih
        (if descend pre = true then
          q ++ (List.finRange 26).flatMap (fun i => match ch i with
            | none => []
            | some c => [(c, pre ++ [letter i])])
         else q) _ (by omega)
        (nodup_insert_suggestion term b pre sugg hn)
      refine ⟨r, ?_, hrn, ?_⟩
      · rw [scanLoop_cons descend word fuel term ch pre q sugg b hb]
        exact hr
      · intro w
        rw [hmem w, mem_insert_suggestion, exists_mem_pushed]
        have hedit : isOneEditDistance word pre = some true ↔ b = true := by
          rw [hb]; simp
        simp only [List.mem_cons, exists_eq_or_imp, scanHit_mk, hedit]
        exact or_shuffle _ _ _ _

theorem spellCheck_loop_eq (word : Word) (fuel : Nat) :
    ∀ q sugg, spellCheck.loop word fuel q sugg = scanLoop (fun _ => true) word fuel q sugg := by
  induction fuel with
  | zero =>
    intro q sugg
    cases q with
    | nil => simp [spellCheck.loop, scanLoop]
    | cons e q => simp [spellCheck.loop, scanLoop]
  | succ fuel ih =>
    intro q sugg
    cases q with
    | nil => simp [spellCheck.loop, scanLoop]
    | cons e q =>
      obtain ⟨⟨term, ch⟩, pre⟩ := e
      rw [spellCheck.loop, scanLoop]
      cases (if term = true then isOneEditDistance word pre else some false) with
      | none => rfl
      | some hit => simp only [if_true]; exact ih _ _

theorem scanHit_root_all (word : Word) (n : TrieNode) (w : Word) :
    ScanHit (fun _ => true) word (n, []) w ↔
      n.searchWord w = some true ∧ isOneEditDistance word w = some true := by
  unfold ScanHit
  constructor
  · rintro ⟨s, hw, hs, hd, -⟩
    simp only [List.nil_append] at hw
    subst hw
    exact ⟨hs, hd⟩
  · rintro ⟨hs, hd⟩
    exact ⟨w, by simp, hs, hd, fun _ _ _ _ => rfl⟩

theorem spellCheck_spec (t : Trie) (word : Word) :
    ∃ r, t.spellCheck word = some r ∧ r.Nodup ∧
      ∀ w, w ∈ r ↔ t.searchWord w = some true ∧ isOneEditDistance word w = some true := by
  obtain ⟨r, hr, hn, hmem⟩ := scanLoop_spec (fun _ => true) word t.root.size
    [(t.root, [])] [] (by simp) List.nodup_nil
  refine ⟨r, ?_, hn, ?_⟩
  · unfold Trie.spellCheck
    rw [spellCheck_loop_eq]
    exact hr
  · intro w
    rw [hmem w]
    simp only [List.not_mem_nil, false_or, List.mem_singleton, exists_eq_left]
    exact scanHit_root_all word t.root w

namespace TrieNode

theorem insertWord_idem {n n1 : TrieNode} {w : Word} (h : insertWord n w = some n1) :
    insertWord n1 w = some n1 := by
  induction w generalizing n n1 with
  | nil =>
    obtain ⟨term, ch⟩ := n
    simp only [insertWord, Option.some.injEq] at h
    subst h
    rfl
  | cons c cs ih =>
    obtain ⟨term, ch⟩ := n
    cases hi : slot c with
    | none => simp [insertWord, hi] at h
    | some i =>
      simp only [insertWord, hi] at h
      cases hm : insertWord (match ch i with | none => TrieNode.new | some n => n) cs with
      | none => simp [hm] at h
      | some m =>
        simp only [hm, Option.some.injEq] at h
        subst h
        simp only [insertWord, hi, Function.update_same, ih hm, Function.update_idem]

theorem insertWord_comm {n n1 n2 : TrieNode} {a b : Word}
    (ha : insertWord n a = some n1) (hb : insertWord n b = some n2) :
    insertWord n1 b = insertWord n2 a := by
  induction a generalizing n n1 n2 b with
  | nil =>
    obtain ⟨term, ch⟩ := n
    simp only [insertWord, Option.some.injEq] at ha
    subst ha
    cases b with
    | nil =>
      simp only [insertWord, Option.some.injEq] at hb
      subst hb
      rfl
    | cons d ds =>
      cases hj : slot d with
      | none => simp [insertWord, hj] at hb
      | some j =>
        simp only [insertWord, hj] at hb
        cases hm : insertWord (match ch j with | none => TrieNode.new | some n => n) ds with
        | none => simp [hm] at hb
        | some m =>
          simp only [hm, Option.some.injEq] at hb
          subst hb
          simp only [insertWord, hj, hm]
  | cons c cs ih =>
    obtain ⟨term, ch⟩ := n
    cases hi : slot c with
    | none => simp [insertWord, hi] at ha
    | some i =>
      simp only [insertWord, hi] at ha
      cases hka : insertWord (match ch i with | none => TrieNode.new | some n => n) cs with
      | none => simp [hka] at ha
      | some ka =>
        simp only [hka, Option.some.injEq] at ha
        subst ha
        cases b with
        | nil =>
          simp only [insertWord, Option.some.injEq] at hb
          subst hb
          simp only [insertWord, hi, hka]
        | cons d ds =>
          cases hj : slot d with
          | none => simp [insertWord, hj] at hb
          | some j =>
            simp only [insertWord, hj] at hb
            cases hkb : insertWord (match ch j with | none => TrieNode.new | some n => n) ds with
            | none => simp [hkb] at hb
            | some kb =>
              simp only [hkb, Option.some.injEq] at hb
              subst hb
              by_cases hij : i = j
              · subst hij
                simp only [insertWord, hi, hj, Function.update_same, Function.update_idem]
                rw [ih hka hkb]
              · have hji : j ≠ i := fun e => hij e.symm
                simp only [insertWord, hi, hj, Function.update_noteq hij,
                  Function.update_noteq hji, hka, hkb]
                rw [Function.update_comm hij]

theorem lowercase_of_searchWord {n : TrieNode} {v : Word} (h : searchWord n v = some true) :
    lowercase v := by
  induction v generalizing n with
  | nil => exact lowercase_nil
  | cons d ds ih =>
    obtain ⟨term, ch⟩ := n
    cases hj : slot d with
    | none => simp [searchWord, hj] at h
    | some j =>
      simp only [searchWord, hj] at h
      cases hch : ch j with
      | none => simp [hch] at h
      | some k =>
        simp only [hch] at h
        exact lowercase_cons.2 ⟨lower_of_slot hj, ih h⟩

theorem searchWord_deleteWord_true_iff {n n1 : TrieNode} {r : Bool} {w : Word}
    (h : deleteWord n w = some (r, n1)) (v : Word) :
    searchWord n1 v = some true ↔ searchWord n v = some true ∧ v ≠ w := by
  constructor
  · intro h1
    have hv := lowercase_of_searchWord h1
    rw [searchWord_deleteWord hv h] at h1
    obtain ⟨b, hb⟩ := searchWord_total n hv
    rw [hb] at h1 ⊢
    simp only [Option.map_some', Option.some.injEq, Bool.and_eq_true, Bool.not_eq_true',
      decide_eq_false_iff_not] at h1
    exact ⟨by rw [h1.1], h1.2⟩
  · rintro ⟨h1, hne⟩
    have hv := lowercase_of_searchWord h1
    rw [searchWord_deleteWord hv h, h1]
    simp [hne]

theorem hasPath_deleteWord {n n1 : TrieNode} {r : Bool} {w : Word}
    (h : deleteWord n w = some (r, n1)) (v : Word) : hasPath n1 v = hasPath n v := by
  induction w generalizing n n1 r v with
  | nil =>
    obtain ⟨term, ch⟩ := n
    simp only [deleteWord, Option.some.injEq, Prod.mk.injEq] at h
    obtain ⟨-, rfl⟩ := h
    cases v <;> simp [hasPath]
  | cons c cs ih =>
    obtain ⟨term, ch⟩ := n
    cases hi : slot c with
    | none => simp [deleteWord, hi] at h
    | some i =>
      simp only [deleteWord, hi] at h
      cases hch : ch i with
      | none =>
        simp only [hch, Option.some.injEq, Prod.mk.injEq] at h
        obtain ⟨-, rfl⟩ := h
        rfl
      | some k =>
        simp only [hch] at h
        cases hk : deleteWord k cs with
        | none => simp [hk] at h
        | some res =>
          obtain ⟨r1, k1⟩ := res
          simp only [hk, Option.some.injEq, Prod.mk.injEq] at h
          obtain ⟨-, rfl⟩ := h
          cases v with
          | nil => rfl
          | cons d ds =>
            cases hj : slot d with
            | none => simp [hasPath, hj]
            | some j =>
              simp only [hasPath, hj]
              by_cases hji : j = i
              · subst hji
                simp only [Function.update_same, hch]
                exact ih hk ds
              · rw [Function.update_noteq hji]

end TrieNode

theorem lex_asymm {a b : Word} (h1 : List.Lex (fun x y : Char => x < y) a b)
    (h2 : List.Lex (fun x y : Char => x < y) b a) : False := by
  induction a generalizing b with
  | nil => cases h2
  | cons x a ih =>
    cases h1 with
    | cons h1 =>
      cases h2 with
      | cons h2 => exact ih h1 h2
      | rel h2 => exact lt_irrefl _ h2
    | rel h1 =>
      cases h2 with
      | cons h2 => exact lt_irrefl _ h1
      | rel h2 => exact lt_asymm h1 h2

theorem eq_of_lex_sorted_of_mem_iff {l1 l2 : List Word}
    (h1 : l1.Pairwise (List.Lex (fun x y : Char => x < y)))
    (h2 : l2.Pairwise (List.Lex (fun x y : Char => x < y)))
    (hm : ∀ w, w ∈ l1 ↔ w ∈ l2) : l1 = l2 := by
  haveI : IsAntisymm Word (List.Lex (fun x y : Char => x < y)) :=
    ⟨fun a b hab hba => (lex_asymm hab hba).elim⟩
  have hn1 : l1.Nodup := by
    refine List.Pairwise.imp ?_ h1
    intro a b hab e
    subst e
    exact lex_irrefl a hab
  have hn2 : l2.Nodup := by
    refine List.Pairwise.imp ?_ h2
    intro a b hab e
    subst e
    exact lex_irrefl a hab
  exact List.eq_of_perm_of_sorted ((List.perm_ext_iff_of_nodup hn1 hn2).2 hm) h1 h2

theorem atMostOneEdit_symm {a b : Word} (h : AtMostOneEdit a b) : AtMostOneEdit b a := by
  rcases h with h | ⟨l, r, c, h1, h2⟩ | ⟨l, r, c, h1, h2⟩ | ⟨l, r, c, d, h1, h2⟩
  · exact Or.inl h.symm
  · exact Or.inr (Or.inr (Or.inl ⟨l, r, c, h2, h1⟩))
  · exact Or.inr (Or.inl ⟨l, r, c, h2, h1⟩)
  · exact Or.inr (Or.inr (Or.inr ⟨l, r, d, c, h2, h1⟩))

/-! ## Loading a dictionary -/

theorem trie_insertWord_comm {t t1 t2 : Trie} {a b : Word}
    (ha : t.insertWord a = some t1) (hb : t.insertWord b = some t2) :
    t1.insertWord b = t2.insertWord a := by
  unfold Trie.insertWord at ha hb ⊢
  cases hna : t.root.insertWord a with
  | none => simp [hna] at ha
  | some n1 =>
    cases hnb : t.root.insertWord b with
    | none => simp [hnb] at hb
    | some n2 =>
      simp only [hna, hnb, Option.map_some', Option.some.injEq] at ha hb
      subst ha
      subst hb
      simp only [TrieNode.insertWord_comm hna hnb]

theorem trie_insertWord_idem {t t1 : Trie} {w : Word} (h : t.insertWord w = some t1) :
    t1.insertWord w = some t1 := by
  unfold Trie.insertWord at h ⊢
  cases hn : t.root.insertWord w with
  | none => simp [hn] at h
  | some n1 =>
    simp only [hn, Option.map_some', Option.some.injEq] at h
    subst h
    simp only [TrieNode.insertWord_idem hn, Option.map_some']

theorem insertWord_eq_inserted (t : Trie) {w : Word} (hw : lowercase w) :
    t.insertWord w = some (t.inserted w) := by
  obtain ⟨t1, h⟩ := trie_insertWord_total t hw
  simp [Trie.inserted, h]

theorem inserted_comm (t : Trie) {a b : Word} (ha : lowercase a) (hb : lowercase b) :
    (t.inserted a).inserted b = (t.inserted b).inserted a := by
  have h := trie_insertWord_comm (insertWord_eq_inserted t ha) (insertWord_eq_inserted t hb)
  rw [insertWord_eq_inserted _ hb, insertWord_eq_inserted _ ha] at h
  exact Option.some.inj h

theorem inserted_idem (t : Trie) {a : Word} (ha : lowercase a) :
    (t.inserted a).inserted a = t.inserted a := by
  have h := trie_insertWord_idem (insertWord_eq_inserted t ha)
  rw [insertWord_eq_inserted _ ha] at h
  exact Option.some.inj h

theorem loadWords_eq_foldl (ws : List Word) (hws : ∀ x ∈ ws, lowercase x) (t : Trie) :
    t.loadWords ws = some (ws.foldl Trie.inserted t) := by
  induction ws generalizing t with
  | nil => rfl
  | cons x xs ih =>
    have h := ih (fun y hy => hws y (List.mem_cons_of_mem _ hy)) (t.inserted x)
    unfold Trie.loadWords at h ⊢
    rw [List.foldlM_cons, insertWord_eq_inserted t (hws x (List.mem_cons_self _ _))]
    exact h

theorem foldl_inserted_absorb (ws : List Word) (hws : ∀ x ∈ ws, lowercase x) {a : Word}
    (ha : lowercase a) (hmem : a ∈ ws) (t : Trie) :
    ws.foldl Trie.inserted (t.inserted a) = ws.foldl Trie.inserted t := by
  induction ws generalizing t with
  | nil => cases hmem
  | cons x xs ih =>
    have hx := hws x (List.mem_cons_self _ _)
    have hxs : ∀ y ∈ xs, lowercase y := fun y hy => hws y (List.mem_cons_of_mem _ hy)
    simp only [List.foldl_cons]
    by_cases e : a = x
    · subst e
      rw [inserted_idem t ha]
    · have hm : a ∈ xs := by
        rcases List.mem_cons.1 hmem with h | h
        · exact absurd h e
        · exact h
      rw [inserted_comm t ha hx]
      exact ih hxs hm (t.inserted x)

theorem foldl_inserted_dedup (ws : List Word) (hws : ∀ x ∈ ws, lowercase x) (t : Trie) :
    ws.foldl Trie.inserted t = ws.dedup.foldl Trie.inserted t := by
  induction ws generalizing t with
  | nil => rfl
  | cons x xs ih =>
    have hx := hws x (List.mem_cons_self _ _)
    have hxs : ∀ y ∈ xs, lowercase y := fun y hy => hws y (List.mem_cons_of_mem _ hy)
    by_cases hm : x ∈ xs
    · rw [List.dedup_cons_of_mem hm, List.foldl_cons, foldl_inserted_absorb xs hxs hx hm t]
      exact ih hxs t
    · rw [List.dedup_cons_of_not_mem hm, List.foldl_cons, List.foldl_cons]
      exact ih hxs (t.inserted x)

theorem loadWords_congr (t : Trie) (ws1 ws2 : List Word) (h1 : ∀ x ∈ ws1, lowercase x)
    (h2 : ∀ x ∈ ws2, lowercase x) (hm : ∀ w, w ∈ ws1 ↔ w ∈ ws2) :
    t.loadWords ws1 = t.loadWords ws2 := by
  rw [loadWords_eq_foldl ws1 h1, loadWords_eq_foldl ws2 h2, foldl_inserted_dedup ws1 h1,
    foldl_inserted_dedup ws2 h2]
  have hp : ws1.dedup.Perm ws2.dedup :=
    (List.perm_ext_iff_of_nodup (List.nodup_dedup _) (List.nodup_dedup _)).2
      (fun a => by simp only [List.mem_dedup]; exact hm a)
  rw [hp.foldl_eq' (fun x hx y hy z =>
    inserted_comm z (h1 x (List.mem_dedup.1 hx)) (h1 y (List.mem_dedup.1 hy))) t]

/-! ## The claims, continued -/

/-- C11, as stated, fails: `isOneEditDistance("cat", "cast")` does not return
false. -/
theorem isOneEditDistance_cat_cast_counterexample :
    isOneEditDistance "cat".toList "cast".toList ≠ some false := by
  decide

/-- C11, amended.  `isOneEditDistance("cat", "cast")` is true: `"cast"` arises
from `"cat"` by the single insertion of `'s'` after `"ca"`. -/
theorem isOneEditDistance_cat_cast :
    isOneEditDistance "cat".toList "cast".toList = some true ∧
      "cat".toList = "ca".toList ++ "t".toList ∧
      "cast".toList = "ca".toList ++ 's' :: "t".toList :=
  ⟨by decide, by decide, by decide⟩

/-- C12 (the one-edit predicate is reflexive).  For every string `a`,
`isOneEditDistance(a, a)` returns true; in particular
`isOneEditDistance("cat", "cat")` is true. -/
theorem isOneEditDistance_refl (a : Word) :
    isOneEditDistance a a = some true ∧
      isOneEditDistance "cat".toList "cat".toList = some true :=
  ⟨(isOneEditDistance_true_iff a a).2 (Or.inl rfl),
    (isOneEditDistance_true_iff _ _).2 (Or.inl rfl)⟩

/-- C13 (suggestion is sound, complete and duplicate-free).  For every trie `t`
and query `q`, `spellCheck(q)` returns a list `r` without repetition such that a
word `w` (any word, so in particular any word over `'a'..'z'`) occurs in `r` if
and only if `searchWord(w)` is true on `t` and `isOneEditDistance(q, w)` is
true.  On the trie built from `{"cot", "dog"}`, `spellCheck("cat")` holds
`"cot"` and nothing else. -/
theorem spellCheck_sound_complete (t : Trie) (q : Word) :
    (∃ r, t.spellCheck q = some r ∧ r.Nodup ∧
      ∀ w, w ∈ r ↔ t.searchWord w = some true ∧ isOneEditDistance q w = some true) ∧
    (Trie.new.loadWords ["cot".toList, "dog".toList]).bind
        (fun d => d.spellCheck "cat".toList)
      = some ["cot".toList] :=
  ⟨spellCheck_spec t q, by decide⟩

/-- C14 (insert is idempotent).  For every trie `t` and word `w` over
`'a'..'z'`, `insertWord(w)` yields a trie `t1` on which a second
`insertWord(w)` yields `t1` again; so `searchWord(w)` stays true and
`prefixSearch(p)` after the second insert equals `prefixSearch(p)` after the
first, for every `p`. -/
theorem insertWord_idempotent (t : Trie) (w : Word) (hw : lowercase w) :
    ∃ t1, t.insertWord w = some t1 ∧ t1.insertWord w = some t1 ∧
      t1.searchWord w = some true ∧
      ∀ p, (t1.insertWord w).bind (fun t2 => t2.prefixSearch p) = t1.prefixSearch p := by
  obtain ⟨t1, h1⟩ := trie_insertWord_total t hw
  have h2 := trie_insertWord_idem h1
  refine ⟨t1, h1, h2, ?_, ?_⟩
  · rw [trie_searchWord_insertWord hw h1]
    obtain ⟨b, hb⟩ := trie_searchWord_total t hw
    simp [hb]
  · intro p
    rw [h2]
    rfl

theorem insertWord_idempotent_witness :
    lowercase "care".toList ∧
      ∃ t1, sampleTrie.insertWord "care".toList = some t1 ∧
        t1.insertWord "care".toList = some t1 ∧
        t1.searchWord "care".toList = some true ∧
        ∀ p, (t1.insertWord "care".toList).bind (fun t2 => t2.prefixSearch p)
          = t1.prefixSearch p :=
  ⟨by decide, insertWord_idempotent sampleTrie "care".toList (by decide)⟩

/-- C15 (operations are total on well-formed input).  For every trie `t` and
every word `w` whose characters all lie in `'a'..'z'`, the index `c - 'a'` of
every character `c` of `w` lies in `0..25` (the checked index is `some i` with
`i = c - 'a'`), and `insertWord`, `searchWord`, `deleteWord` and `prefixSearch`
on `w` all produce a result: the out-of-range branch is not taken. -/
theorem operations_total_on_lowercase (t : Trie) (w : Word) (hw : lowercase w) :
    (∀ c ∈ w, ∃ i : Fin 26, slot c = some i ∧ (i.val : Int) = (c.toNat : Int) - 97) ∧
      (∃ t1, t.insertWord w = some t1) ∧
      (∃ b, t.searchWord w = some b) ∧
      (∃ r, t.deleteWord w = some r) ∧
      (∃ l, t.prefixSearch w = some l) := by
  refine ⟨?_, trie_insertWord_total t hw, trie_searchWord_total t hw, ?_, ?_⟩
  · intro c hc
    obtain ⟨i, hi⟩ := slot_of_lower (hw c hc)
    refine ⟨i, hi, ?_⟩
    have := (slot_eq_some_iff c i).1 hi
    omega
  · obtain ⟨t1, h1⟩ := trie_deleteWord_total t hw
    exact ⟨_, h1⟩
  · obtain ⟨l, h1, -⟩ := TrieNode.prefixSearch_spec w t.root hw
    exact ⟨l, h1⟩

theorem operations_total_on_lowercase_witness :
    lowercase "zebra".toList ∧
      (∀ c ∈ "zebra".toList, ∃ i : Fin 26, slot c = some i ∧
        (i.val : Int) = (c.toNat : Int) - 97) ∧
      (∃ t1, sampleTrie.insertWord "zebra".toList = some t1) ∧
      (∃ b, sampleTrie.searchWord "zebra".toList = some b) ∧
      (∃ r, sampleTrie.deleteWord "zebra".toList = some r) ∧
      (∃ l, sampleTrie.prefixSearch "zebra".toList = some l) :=
  ⟨by decide, operations_total_on_lowercase sampleTrie "zebra".toList (by decide)⟩

/-- C17 (delete never prunes nodes).  For every trie `t` and word `w` over
`'a'..'z'`, `deleteWord(w)` yields a trie `t1` in which the letter path of every
word `v` exists exactly when it exists in `t`; the terminating flag read by
`searchWord(v)` is unchanged for every word `v` over `'a'..'z'` other than `w`;
and after a successful delete a second `deleteWord(w)` returns true again. -/
theorem deleteWord_keeps_shape (t : Trie) (w : Word) (hw : lowercase w) :
    ∃ r t1, t.deleteWord w = some (r, t1) ∧
      (∀ v, t1.hasPath v = t.hasPath v) ∧
      (∀ v, lowercase v → v ≠ w → t1.searchWord v = t.searchWord v) ∧
      (r = true → ∃ t2, t1.deleteWord w = some (true, t2)) := by
  obtain ⟨t1, h1⟩ := trie_deleteWord_total t hw
  have hpath : ∀ v, t1.hasPath v = t.hasPath v := by
    intro v
    unfold Trie.deleteWord at h1
    cases hn : t.root.deleteWord w with
    | none => simp [hn] at h1
    | some res =>
      obtain ⟨r1, n1⟩ := res
      simp only [hn, Option.map_some', Option.some.injEq, Prod.mk.injEq] at h1
      obtain ⟨-, rfl⟩ := h1
      exact TrieNode.hasPath_deleteWord hn v
  refine ⟨_, t1, h1, hpath, ?_, ?_⟩
  · intro v hv hne
    rw [trie_searchWord_deleteWord hv h1]
    obtain ⟨b, hb⟩ := trie_searchWord_total t hv
    simp [hb, hne]
  · intro hr
    obtain ⟨t2, h2⟩ := trie_deleteWord_total t1 hw
    rw [hpath w, hr] at h2
    exact ⟨t2, h2⟩

theorem deleteWord_keeps_shape_witness :
    lowercase "car".toList ∧
      ∃ r t1, sampleTrie.deleteWord "car".toList = some (r, t1) ∧
        (∀ v, t1.hasPath v = sampleTrie.hasPath v) ∧
        (∀ v, lowercase v → v ≠ "car".toList → t1.searchWord v = sampleTrie.searchWord v) ∧
        (r = true → ∃ t2, t1.deleteWord "car".toList = some (true, t2)) :=
  ⟨by decide, deleteWord_keeps_shape sampleTrie "car".toList (by decide)⟩

/-- C18 (delete affects no other word).  For every trie `t` and word `w` over
`'a'..'z'`, on the trie `t1` after `deleteWord(w)`: `searchWord(v)` equals
`searchWord(v)` on `t` for every word `v` over `'a'..'z'` different from `w`,
and for every prefix `p` over `'a'..'z'`, `prefixSearch(p)` on `t1` is
`prefixSearch(p)` on `t` with `w` removed, the remaining words in the same
order. -/
theorem deleteWord_frame (t : Trie) (w p : Word) (hw : lowercase w) (hp : lowercase p) :
    ∃ r t1 l, t.deleteWord w = some (r, t1) ∧
      (∀ v, lowercase v → v ≠ w → t1.searchWord v = t.searchWord v) ∧
      t.prefixSearch p = some l ∧
      t1.prefixSearch p = some (l.filter (fun x => decide (x ≠ w))) := by
  obtain ⟨t1, h1⟩ := trie_deleteWord_total t hw
  obtain ⟨l, hl, ml, sl, -⟩ := TrieNode.prefixSearch_spec p t.root hp
  obtain ⟨l1, hl1, ml1, sl1, -⟩ := TrieNode.prefixSearch_spec p t1.root hp
  have htrue : ∀ v, t1.root.searchWord v = some true ↔
      t.root.searchWord v = some true ∧ v ≠ w := by
    intro v
    unfold Trie.deleteWord at h1
    cases hn : t.root.deleteWord w with
    | none => simp [hn] at h1
    | some res =>
      obtain ⟨r1, n1⟩ := res
      simp only [hn, Option.map_some', Option.some.injEq, Prod.mk.injEq] at h1
      obtain ⟨-, rfl⟩ := h1
      exact TrieNode.searchWord_deleteWord_true_iff hn v
  refine ⟨_, t1, l, h1, ?_, hl, ?_⟩
  · intro v hv hne
    rw [trie_searchWord_deleteWord hv h1]
    obtain ⟨b, hb⟩ := trie_searchWord_total t hv
    simp [hb, hne]
  · have : l1 = l.filter (fun x => decide (x ≠ w)) := by
      apply eq_of_lex_sorted_of_mem_iff sl1 (sl.filter _)
      intro x
      rw [ml1 x, List.mem_filter, ml x]
      simp only [htrue, decide_eq_true_eq]
      constructor
      · rintro ⟨s, rfl, hs, hne⟩
        exact ⟨⟨s, rfl, hs⟩, hne⟩
      · rintro ⟨⟨s, rfl, hs⟩, hne⟩
        exact ⟨s, rfl, hs, hne⟩
    rw [← this]
    exact hl1

theorem deleteWord_frame_witness :
    lowercase "car".toList ∧ lowercase "ca".toList ∧
      ∃ r t1 l, sampleTrie.deleteWord "car".toList = some (r, t1) ∧
        (∀ v, lowercase v → v ≠ "car".toList → t1.searchWord v = sampleTrie.searchWord v) ∧
        sampleTrie.prefixSearch "ca".toList = some l ∧
        t1.prefixSearch "ca".toList = some (l.filter (fun x => decide (x ≠ "car".toList))) :=
  ⟨by decide, by decide,
    deleteWord_frame sampleTrie "car".toList "ca".toList (by decide) (by decide)⟩

/-- C19 (insertion order does not matter).  For every trie `t` and all words
`a`, `b` over `'a'..'z'`, inserting `a` then `b` yields exactly the trie that
inserting `b` then `a` yields; and loading two lists of words over `'a'..'z'`
with the same elements, in any order and multiplicity, yields the same trie. -/
theorem insertWord_order_irrelevant (t : Trie) (a b : Word)
    (ha : lowercase a) (hb : lowercase b) :
    (∃ t1 t2 t3, t.insertWord a = some t1 ∧ t.insertWord b = some t2 ∧
      t1.insertWord b = some t3 ∧ t2.insertWord a = some t3) ∧
    (∀ ws1 ws2 : List Word, (∀ x ∈ ws1, lowercase x) → (∀ x ∈ ws2, lowercase x) →
      (∀ w, w ∈ ws1 ↔ w ∈ ws2) →
      ∃ d, t.loadWords ws1 = some d ∧ t.loadWords ws2 = some d) := by
  constructor
  · obtain ⟨t1, h1⟩ := trie_insertWord_total t ha
    obtain ⟨t2, h2⟩ := trie_insertWord_total t hb
    obtain ⟨t3, h3⟩ := trie_insertWord_total t1 hb
    exact ⟨t1, t2, t3, h1, h2, h3, by rw [← trie_insertWord_comm h1 h2]; exact h3⟩
  · intro ws1 ws2 h1 h2 hm
    refine ⟨_, loadWords_eq_foldl ws1 h1 t, ?_⟩
    rw [← loadWords_congr t ws1 ws2 h1 h2 hm]
    exact loadWords_eq_foldl ws1 h1 t

theorem insertWord_order_irrelevant_witness :
    lowercase "cab".toList ∧ lowercase "cow".toList ∧
      (∃ t1 t2 t3, sampleTrie.insertWord "cab".toList = some t1 ∧
        sampleTrie.insertWord "cow".toList = some t2 ∧
        t1.insertWord "cow".toList = some t3 ∧ t2.insertWord "cab".toList = some t3) ∧
      (∀ x ∈ ["cab".toList, "cow".toList], lowercase x) ∧
      (∀ x ∈ ["cow".toList, "cab".toList, "cow".toList], lowercase x) ∧
      (∀ w, w ∈ ["cab".toList, "cow".toList] ↔
        w ∈ ["cow".toList, "cab".toList, "cow".toList]) ∧
      ∃ d, sampleTrie.loadWords ["cab".toList, "cow".toList] = some d ∧
        sampleTrie.loadWords ["cow".toList, "cab".toList, "cow".toList] = some d :=
  ⟨by decide, by decide,
    (insertWord_order_irrelevant sampleTrie "cab".toList "cow".toList
      (by decide) (by decide)).1,
    by decide, by decide, by intro w; simp only [List.mem_cons, List.mem_singleton,
      List.not_mem_nil, or_false]; tauto,
    (insertWord_order_irrelevant sampleTrie "cab".toList "cow".toList
      (by decide) (by decide)).2 _ _ (by decide) (by decide)
      (by intro w; simp only [List.mem_cons, List.mem_singleton, List.not_mem_nil, or_false];
          tauto)⟩

/-- C20 (the one-edit predicate is symmetric).  For all strings `a` and `b`,
`isOneEditDistance(a, b)` and `isOneEditDistance(b, a)` return the same
value. -/
theorem isOneEditDistance_symm (a b : Word) :
    isOneEditDistance a b = isOneEditDistance b a := by
  have hab := isOneEditDistance_true_iff a b
  have hba := isOneEditDistance_true_iff b a
  have hsym : AtMostOneEdit a b ↔ AtMostOneEdit b a :=
    ⟨atMostOneEdit_symm, atMostOneEdit_symm⟩
  rw [isOneEditDistance_eq a b, isOneEditDistance_eq b a] at *
  generalize (decide (((a.length : Int) - (b.length : Int)).natAbs ≤ 1)
    && OneEdit.walk (compare a.length b.length) a b) = x at *
  generalize (decide (((b.length : Int) - (a.length : Int)).natAbs ≤ 1)
    && OneEdit.walk (compare b.length a.length) b a) = y at *
  have : x = true ↔ y = true := by
    simp only [Option.some.injEq] at hab hba
    rw [hab, hba]
    exact hsym
  cases x <;> cases y <;> simp_all
